import Mathlib

/-!
Verification of the multidimensional Hermite polynomial engine of
`include/hermite_multidimensional.hpp`.

The embedding below mirrors the C++ source:

* a multi-index ("position") is a `List ℕ` of 1-based coordinates, one per
  mode, the head being axis 0; the C++ `dim` is the length of the list;
* the odometer state of `update_iterator` is the structure `IterState`
  (`nextPos`, `jumpFrom`, and the deferred-carry flag `jump`);
* the output tensor `H` (a C++ `T*` obtained from `malloc`) is a function
  `ℕ → T`; since the source's `memset(H, sizeof(val), sizeof(H))` zeroes only
  a pointer-sized prefix (with a nonzero fill byte), the buffer contents
  after allocation are unspecified, which the embedding models by an explicit
  `init : ℕ → T` parameter holding the arbitrary malloc contents;
* the table `intsqrt` of floating-point square roots (and `std::sqrt` /
  `std::exp` on scalars) has no exact counterpart in a ring, so variant
  functions receive it as a function parameter `intsqrt : ℕ → T`
  (respectively `sqrtT : T → T`); every theorem below is independent of the
  values of that table;
* machine integers (`int`, `ullint`) are modelled by `ℕ` (positions stay in
  `[1, resolution]`, so the `- 1` subtractions in the source never go below
  zero on the reachable states covered by the theorems), except for the
  two-mode squeezer's selection rule `nextPos[0]-nextPos[1] == nextPos[2]-nextPos[3]`
  whose differences can be negative and are therefore computed in `ℤ`.
-/

/-- Model of `vec2index` from the source: Horner evaluation
`nextCoordinate = pos[0]-1; for ii < dim-1: nextCoordinate = nextCoordinate*resolution + (pos[ii+1]-1)`.
Axis 0 is the most significant mixed-radix digit. -/
def vec2index (pos : List ℕ) (resolution : ℕ) : ℕ :=
  match pos with
  | [] => 0
  | p :: ps => ps.foldl (fun acc q => acc * resolution + (q - 1)) (p - 1)

/-- State of the enumerator of `update_iterator`: the two C++ vectors and the
deferred-carry integer `jump`. -/
structure IterState where
  nextPos : List ℕ
  jumpFrom : List ℕ
  jump : ℕ
  deriving Repr, DecidableEq

/-- The first stage of `update_iterator`:
`if (jump > 0) { jumpFrom[jump] += 1; jump = 0; }` (applied to `jumpFrom`). -/
def adjusted (s : IterState) : List ℕ :=
  if 0 < s.jump then s.jumpFrom.set s.jump (s.jumpFrom.getD s.jump 0 + 1)
  else s.jumpFrom

/-- The scan loop of `update_iterator`: for each axis `ii` in order, if
`nextPos[ii] + 1 > resolution` then reset (`nextPos[ii] = 1; jumpFrom[ii] = 1;
jump = ii+1`) and continue, else record (`jumpFrom[ii] = nextPos[ii];
nextPos[ii] += 1`) and break.  The accumulator `jm` carries the current value
of the C++ `jump` variable (it enters as `0` and is `ii+1` after an overflow
at axis `ii`); the result is `(nextPos, jumpFrom, jump)` after the loop. -/
def scanStep (resolution : ℕ) : List ℕ → List ℕ → ℕ → List ℕ × List ℕ × ℕ
  | p :: ps, _ :: qs, jm =>
    if resolution < p + 1 then
      let r := scanStep resolution ps qs (jm + 1)
      (1 :: r.1, 1 :: r.2.1, r.2.2)
    else ((p + 1) :: ps, p :: qs, jm)
  | l, l2, jm => (l, l2, jm)

/-- The final loop of `update_iterator`:
`for(k = 0; k < dim; k++) if (nextPos[k] != jumpFrom[k]) break;` — the least
index where the two lists differ (their common length if they agree). -/
def findDiff : List ℕ → List ℕ → ℕ
  | p :: ps, q :: qs => if p = q then findDiff ps qs + 1 else 0
  | _, _ => 0

/-- Model of `update_iterator` from the source: apply the deferred carry, run the scan
loop, and return the updated state together with the changed axis `k`. -/
def update_iterator (resolution : ℕ) (s : IterState) : IterState × ℕ :=
  let r := scanStep resolution s.nextPos (adjusted s) 0
  (⟨r.1, r.2.1, r.2.2⟩, findDiff r.1 r.2.1)

/-- Initial enumerator state of every fill loop:
`nextPos(dim, 1)`, `jumpFrom(dim, 1)`, `jump = 0`. -/
def initIter (dim : ℕ) : IterState :=
  ⟨List.replicate dim 1, List.replicate dim 1, 0⟩

/-- The enumerator state after `j` calls to `update_iterator`, starting from
the all-ones state used by every fill loop. -/
def iterTraj (res dim : ℕ) : ℕ → IterState
  | 0 => initIter dim
  | j + 1 => (update_iterator res (iterTraj res dim j)).1

/-- The axis `k` returned by call number `j+1` to `update_iterator`. -/
def iterAxis (res dim j : ℕ) : ℕ :=
  (update_iterator res (iterTraj res dim j)).2

/-- Model of `tmpjump` of the source: `jumpFrom` with coordinate `i` decremented
(`std::transform(jumpFrom, prevJump, minus)` with `prevJump = e_i`). -/
def subAt (l : List ℕ) (i : ℕ) : List ℕ :=
  l.set i (l.getD i 0 - 1)

/-- The shared shape of every correction loop in the source: iterate over the
axis list `axes`; for each `ii` with `jumpFrom[ii] > 1` perform the in-place
update `H[nextC] = H[nextC] - coef(ii) * H[prev ii]`, where `coef ii` stands
for the source's weight-times-`R`-entry factor and `prev ii` for
`vec2index(jumpFrom - e_ii, resolution)`. -/
def corrFold {T : Type} [CommRing T] (nextC : ℕ) (axes : List ℕ) (jf : List ℕ)
    (coef : ℕ → T) (prev : ℕ → ℕ) (H : ℕ → T) : ℕ → T :=
  axes.foldl
    (fun Hc ii =>
      if 1 < jf.getD ii 0 then
        Function.update Hc nextC (Hc nextC - coef ii * Hc (prev ii))
      else Hc) H

/-- One iteration of the fill loop of `hermite_multidimensional_cpp`:
advance the iterator, then
`H[nextCoordinate] = H[fromCoordinate] * y[k]` followed by the correction loop
`H[nextCoordinate] -= (T)(jumpFrom[ii]-1) * R[dim*k+ii] * H[prevCoordinate]`
over all axes `ii < dim` with `jumpFrom[ii] > 1`. -/
def hermStep {T : Type} [CommRing T] (R y : List T) (res dim : ℕ)
    (st : (ℕ → T) × IterState) : (ℕ → T) × IterState :=
  let r := update_iterator res st.2
  let s := r.1
  let k := r.2
  let nextC := vec2index s.nextPos res
  let fromC := vec2index s.jumpFrom res
  let H1 := Function.update st.1 nextC (st.1 fromC * y.getD k 0)
  (corrFold nextC (List.range dim) s.jumpFrom
      (fun ii => ((s.jumpFrom.getD ii 0 - 1 : ℕ) : T) * R.getD (dim * k + ii) 0)
      (fun ii => vec2index (subAt s.jumpFrom ii) res) H1,
    s)

/-- The state (tensor, iterator) of `hermite_multidimensional_cpp` after `j`
iterations of its fill loop; the tensor starts as the malloc contents `init`
with `H[0] = 1`. -/
def hermTraj {T : Type} [CommRing T] (R y : List T) (res dim : ℕ)
    (init : ℕ → T) (j : ℕ) : (ℕ → T) × IterState :=
  (hermStep R y res dim)^[j] (Function.update init 0 1, initIter dim)

/-- Model of `hermite_multidimensional_cpp` from the source: `dim = sqrt(R.size())`,
`Hdim = resolution^dim`, seed `H[0] = 1`, then `Hdim - 1` fill iterations.
`init` models the unspecified contents of the `malloc`ed buffer (the source's
`memset` zeroes only a pointer-sized prefix, see the file comment). -/
def hermite_multidimensional_cpp {T : Type} [CommRing T] (R y : List T)
    (resolution : ℕ) (init : ℕ → T) : ℕ → T :=
  (hermTraj R y resolution (Nat.sqrt R.length) init
      (resolution ^ Nat.sqrt R.length - 1)).1

/-- One iteration of the fill loop of `renorm_hermite_multidimensional_cpp`:
as `hermStep` but with
`H[nextCoordinate] = H[fromCoordinate] * y[k] / intsqrt[nextPos[k]-1]` and
correction factor `intsqrt[jumpFrom[ii]-1]/intsqrt[nextPos[k]-1] * R[k*dim+ii]`. -/
def renormStep {T : Type} [Field T] (R y : List T) (intsqrt : ℕ → T)
    (res dim : ℕ) (st : (ℕ → T) × IterState) : (ℕ → T) × IterState :=
  let r := update_iterator res st.2
  let s := r.1
  let k := r.2
  let nextC := vec2index s.nextPos res
  let fromC := vec2index s.jumpFrom res
  let H1 := Function.update st.1 nextC
    (st.1 fromC * y.getD k 0 / intsqrt (s.nextPos.getD k 0 - 1))
  (corrFold nextC (List.range dim) s.jumpFrom
      (fun ii => intsqrt (s.jumpFrom.getD ii 0 - 1) / intsqrt (s.nextPos.getD k 0 - 1)
        * R.getD (k * dim + ii) 0)
      (fun ii => vec2index (subAt s.jumpFrom ii) res) H1,
    s)

/-- Model of `renorm_hermite_multidimensional_cpp` from the source. -/
def renorm_hermite_multidimensional_cpp {T : Type} [Field T] (R y : List T)
    (intsqrt : ℕ → T) (resolution : ℕ) (init : ℕ → T) : ℕ → T :=
  ((renormStep R y intsqrt resolution (Nat.sqrt R.length))^[resolution ^ Nat.sqrt R.length - 1]
      (Function.update init 0 1, initIter (Nat.sqrt R.length))).1

/-- The axis-restriction of the interferometer's correction loop:
`if (k > num_modes) { low_lim = 0; high_lim = num_modes; } else { low_lim = num_modes; high_lim = dim; }`. -/
def interfLimits (num_modes dim k : ℕ) : ℕ × ℕ :=
  if num_modes < k then (0, num_modes) else (num_modes, dim)

/-- One iteration of the fill loop of `interferometer_cpp`: advance the
iterator; compute `bran` (sum of the first `num_modes` coordinates of
`nextPos`) and `ketn` (sum of the rest); if `bran == ketn`, run the
correction loop over the axis range given by `interfLimits`
(`fromCoordinate` is computed by the source but never used — no base term is
written, `H[nextCoordinate]` keeps its previous value before the
subtractions). -/
def interfStep {T : Type} [Field T] (R : List T) (intsqrt : ℕ → T)
    (res dim num_modes : ℕ) (st : (ℕ → T) × IterState) : (ℕ → T) × IterState :=
  let r := update_iterator res st.2
  let s := r.1
  let k := r.2
  let bran := (s.nextPos.take num_modes).sum
  let ketn := (s.nextPos.drop num_modes).sum
  if bran = ketn then
    let nextC := vec2index s.nextPos res
    let lh := interfLimits num_modes dim k
    (corrFold nextC (List.range' lh.1 (lh.2 - lh.1)) s.jumpFrom
        (fun ii => intsqrt (s.jumpFrom.getD ii 0 - 1) / intsqrt (s.nextPos.getD k 0 - 1)
          * R.getD (k * dim + ii) 0)
        (fun ii => vec2index (subAt s.jumpFrom ii) res) st.1,
      s)
  else (st.1, s)

/-- The fill state of `interferometer_cpp` after `j` iterations. -/
def interfTraj {T : Type} [Field T] (R : List T) (intsqrt : ℕ → T)
    (res dim num_modes : ℕ) (init : ℕ → T) (j : ℕ) : (ℕ → T) × IterState :=
  (interfStep R intsqrt res dim num_modes)^[j]
    (Function.update init 0 1, initIter dim)

/-- Model of `interferometer_cpp` from the source: `dim = sqrt(R.size())`,
`num_modes = dim/2`, seed `H[0] = 1`, then `Hdim - 1` fill iterations. -/
def interferometer_cpp {T : Type} [Field T] (R : List T) (intsqrt : ℕ → T)
    (resolution : ℕ) (init : ℕ → T) : ℕ → T :=
  (interfTraj R intsqrt resolution (Nat.sqrt R.length) (Nat.sqrt R.length / 2) init
      (resolution ^ Nat.sqrt R.length - 1)).1

/-- One iteration of the fill loop of `squeezing_cpp`: advance the iterator;
with `bran = nextPos[0]`, `ketn = nextPos[1]`, if `bran % 2 == ketn % 2` run
the correction loop over all axes (again no base term: `fromCoordinate` is
computed but unused by the source). -/
def sqzStep {T : Type} [Field T] (R : List T) (intsqrt : ℕ → T)
    (res dim : ℕ) (st : (ℕ → T) × IterState) : (ℕ → T) × IterState :=
  let r := update_iterator res st.2
  let s := r.1
  let k := r.2
  let bran := s.nextPos.getD 0 0
  let ketn := s.nextPos.getD 1 0
  if bran % 2 = ketn % 2 then
    let nextC := vec2index s.nextPos res
    (corrFold nextC (List.range dim) s.jumpFrom
        (fun ii => intsqrt (s.jumpFrom.getD ii 0 - 1) / intsqrt (s.nextPos.getD k 0 - 1)
          * R.getD (k * dim + ii) 0)
        (fun ii => vec2index (subAt s.jumpFrom ii) res) st.1,
      s)
  else (st.1, s)

/-- The fill state of `squeezing_cpp` after `j` iterations; the seed is
`H[0] = std::sqrt(-R[1])`, modelled with the scalar square-root parameter
`sqrtT`. -/
def sqzTraj {T : Type} [Field T] (R : List T) (sqrtT : T → T) (intsqrt : ℕ → T)
    (res dim : ℕ) (init : ℕ → T) (j : ℕ) : (ℕ → T) × IterState :=
  (sqzStep R intsqrt res dim)^[j]
    (Function.update init 0 (sqrtT (-R.getD 1 0)), initIter dim)

/-- Model of `squeezing_cpp` from the source (`dim = sqrt(R.size())`, asserted `= 2`). -/
def squeezing_cpp {T : Type} [Field T] (R : List T) (sqrtT : T → T)
    (intsqrt : ℕ → T) (resolution : ℕ) (init : ℕ → T) : ℕ → T :=
  (sqzTraj R sqrtT intsqrt resolution (Nat.sqrt R.length) init
      (resolution ^ Nat.sqrt R.length - 1)).1

/-- One iteration of the fill loop of `displacement_cpp`: base term
`H[nextCoordinate] = H[fromCoordinate] * y[k] / intsqrt[nextPos[k]-1]`, then a
single correction at the fixed axis `ii = 1 - k` (its term carries no `R`
factor). -/
def dispStep {T : Type} [Field T] (y : List T) (intsqrt : ℕ → T)
    (res : ℕ) (st : (ℕ → T) × IterState) : (ℕ → T) × IterState :=
  let r := update_iterator res st.2
  let s := r.1
  let k := r.2
  let nextC := vec2index s.nextPos res
  let fromC := vec2index s.jumpFrom res
  let H1 := Function.update st.1 nextC
    (st.1 fromC * y.getD k 0 / intsqrt (s.nextPos.getD k 0 - 1))
  let ii := if k = 0 then 1 else 0
  (if 1 < s.jumpFrom.getD ii 0 then
      Function.update H1 nextC
        (H1 nextC - intsqrt (s.jumpFrom.getD ii 0 - 1) / intsqrt (s.nextPos.getD k 0 - 1)
          * H1 (vec2index (subAt s.jumpFrom ii) res))
    else H1,
    s)

/-- Model of `displacement_cpp` from the source: `dim = 2`, seed
`H[0] = exp(0.5*y[0]*y[1])` modelled by the parameter `seed`. -/
def displacement_cpp {T : Type} [Field T] (y : List T) (intsqrt : ℕ → T)
    (seed : T) (resolution : ℕ) (init : ℕ → T) : ℕ → T :=
  ((dispStep y intsqrt resolution)^[resolution ^ 2 - 1]
      (Function.update init 0 seed, initIter 2)).1

/-- One iteration of the fill loop of `two_mode_squeezing_cpp`: advance the
iterator; with `bran = nextPos[0]-nextPos[1]` and `ketn = nextPos[2]-nextPos[3]`
(signed `int` differences, hence computed in `ℤ`), if `bran == ketn` run the
correction loop over all axes (no base term; `fromCoordinate` unused). -/
def tmsStep {T : Type} [Field T] (R : List T) (intsqrt : ℕ → T)
    (res dim : ℕ) (st : (ℕ → T) × IterState) : (ℕ → T) × IterState :=
  let r := update_iterator res st.2
  let s := r.1
  let k := r.2
  let bran : ℤ := (s.nextPos.getD 0 0 : ℤ) - (s.nextPos.getD 1 0 : ℤ)
  let ketn : ℤ := (s.nextPos.getD 2 0 : ℤ) - (s.nextPos.getD 3 0 : ℤ)
  if bran = ketn then
    let nextC := vec2index s.nextPos res
    (corrFold nextC (List.range dim) s.jumpFrom
        (fun ii => intsqrt (s.jumpFrom.getD ii 0 - 1) / intsqrt (s.nextPos.getD k 0 - 1)
          * R.getD (k * dim + ii) 0)
        (fun ii => vec2index (subAt s.jumpFrom ii) res) st.1,
      s)
  else (st.1, s)

/-- The fill state of `two_mode_squeezing_cpp` after `j` iterations.  Unlike
the other variants this function explicitly zero-fills the whole buffer
(`for jj < Hdim: H[jj] = 0.0`), so indices below `Hdim` start at `0`; the seed
is `H[0] = -R[2]`. -/
def tmsTraj {T : Type} [Field T] (R : List T) (intsqrt : ℕ → T)
    (res dim : ℕ) (init : ℕ → T) (j : ℕ) : (ℕ → T) × IterState :=
  (tmsStep R intsqrt res dim)^[j]
    (Function.update (fun i => if i < res ^ dim then (0 : T) else init i) 0
        (-R.getD 2 0),
      initIter dim)

/-- Model of `two_mode_squeezing_cpp` from the source (`dim = sqrt(R.size())`,
asserted `= 4`). -/
def two_mode_squeezing_cpp {T : Type} [Field T] (R : List T) (intsqrt : ℕ → T)
    (resolution : ℕ) (init : ℕ → T) : ℕ → T :=
  (tmsTraj R intsqrt resolution (Nat.sqrt R.length) init
      (resolution ^ Nat.sqrt R.length - 1)).1

/-- The values written to `std::cout` by `two_mode_squeezing_cpp`: its
zero-initialization loop executes `H[jj] = 0.0; std::cout << H[jj];` for every
`jj < Hdim`, so one zero is printed per tensor entry. -/
def two_mode_squeezing_cout (T : Type) [Field T] (R : List T)
    (resolution : ℕ) : List T :=
  (List.range (resolution ^ Nat.sqrt R.length)).map (fun _ => (0 : T))

/-! ## Specification-side index arithmetic

`toNum` reads a position as a little-endian (axis 0 least significant)
mixed-radix numeral with digits `coordinate - 1`; it is the rank of the
position in the odometer traversal order.  `ofNum` is its inverse on
`d`-digit numerals.  `vec2index` equals `toNum` of the reversed list (axis 0
most significant). -/

/-- Odometer rank of a position: little-endian mixed-radix value of the
digits `coordinate - 1`. -/
def toNum (res : ℕ) : List ℕ → ℕ
  | [] => 0
  | p :: ps => (p - 1) + res * toNum res ps

/-- The position of odometer rank `n` among `d`-coordinate positions. -/
def ofNum (res : ℕ) : ℕ → ℕ → List ℕ
  | 0, _ => []
  | d + 1, n => (n % res + 1) :: ofNum res d (n / res)

/-- All coordinates lie in `[1, res]`. -/
def inRange (res : ℕ) (l : List ℕ) : Prop := ∀ x ∈ l, 1 ≤ x ∧ x ≤ res

/-- Unflattening of a linear offset (the inverse of `vec2index`): the
big-endian digit list, i.e. the reverse of the little-endian one. -/
def index2vec (res dim n : ℕ) : List ℕ := (ofNum res dim n).reverse

/-- Index of the first coordinate strictly below `res` (the axis that absorbs
the next odometer increment); the length of the list if there is none. -/
def firstBelow (res : ℕ) : List ℕ → ℕ
  | [] => 0
  | p :: ps => if p < res then 0 else firstBelow res ps + 1

instance inRange_decidable (res : ℕ) (l : List ℕ) : Decidable (inRange res l) :=
  inferInstanceAs (Decidable (∀ x ∈ l, 1 ≤ x ∧ x ≤ res))

/-! ## Small list lemmas -/

theorem list_getD_set_self : ∀ (l : List ℕ) (i v : ℕ), i < l.length →
    (l.set i v).getD i 0 = v
  | _ :: _, 0, _, _ => rfl
  | _ :: l, i + 1, v, h => list_getD_set_self l i v (Nat.lt_of_succ_lt_succ h)

theorem list_getD_set_ne : ∀ (l : List ℕ) (i j v : ℕ), j ≠ i →
    (l.set i v).getD j 0 = l.getD j 0
  | [], _, _, _, _ => rfl
  | _ :: _, 0, 0, _, h => absurd rfl h
  | _ :: _, 0, _ + 1, _, _ => rfl
  | _ :: _, _ + 1, 0, _, _ => rfl
  | _ :: l, i + 1, j + 1, v, h =>
      list_getD_set_ne l i j v (fun e => h (by rw [e]))

theorem list_set_self : ∀ (l : List ℕ) (i : ℕ), i < l.length →
    l.set i (l.getD i 0) = l
  | _ :: _, 0, _ => rfl
  | a :: l, i + 1, h =>
      congrArg (fun t => a :: t) (list_set_self l i (Nat.lt_of_succ_lt_succ h))

theorem tail_set_zero (l : List ℕ) (v : ℕ) : (l.set 0 v).tail = l.tail := by
  cases l <;> rfl

theorem getD_repApp_lt (a d : ℕ) (l : List ℕ) :
    ∀ (m i : ℕ), i < m → (List.replicate m a ++ l).getD i d = a := by
  intro m
  induction m with
  | zero => intro i hi; exact absurd hi (Nat.not_lt_zero i)
  | succ m ih =>
      intro i hi
      rw [List.replicate_succ, List.cons_append]
      cases i with
      | zero => rfl
      | succ i => rw [List.getD_cons_succ]; exact ih i (Nat.lt_of_succ_lt_succ hi)

theorem getD_repApp_ge (a d : ℕ) (l : List ℕ) :
    ∀ (m i : ℕ), (List.replicate m a ++ l).getD (m + i) d = l.getD i d := by
  intro m
  induction m with
  | zero => intro i; simp
  | succ m ih =>
      intro i
      rw [List.replicate_succ, List.cons_append, Nat.succ_add, List.getD_cons_succ]
      exact ih i

theorem set_repApp (a v x : ℕ) (l : List ℕ) :
    ∀ m, (List.replicate m a ++ x :: l).set m v = List.replicate m a ++ v :: l := by
  intro m
  induction m with
  | zero => rfl
  | succ m ih =>
      rw [List.replicate_succ, List.cons_append, List.cons_append]
      show a :: (List.replicate m a ++ x :: l).set m v = _
      rw [ih]

theorem getD_mem_of_lt (l : List ℕ) (i : ℕ) (h : i < l.length) :
    l.getD i 0 ∈ l := by
  rw [List.getD_eq_getElem _ _ h]
  exact List.getElem_mem h

/-! ## Mixed-radix numerals -/

theorem toNum_replicate_one (res : ℕ) : ∀ d, toNum res (List.replicate d 1) = 0 := by
  intro d
  induction d with
  | zero => rfl
  | succ d ih => rw [List.replicate_succ]; simp [toNum, ih]

theorem ofNum_zero (res : ℕ) : ∀ d, ofNum res d 0 = List.replicate d 1 := by
  intro d
  induction d with
  | zero => rfl
  | succ d ih => simp [ofNum, Nat.zero_mod, Nat.zero_div, ih, List.replicate_succ]

theorem ofNum_length (res : ℕ) : ∀ d n, (ofNum res d n).length = d := by
  intro d
  induction d with
  | zero => intro n; rfl
  | succ d ih => intro n; simp [ofNum, ih]

theorem ofNum_inRange (res : ℕ) (hres : 1 ≤ res) :
    ∀ d n, inRange res (ofNum res d n) := by
  intro d
  induction d with
  | zero => intro n x hx; simp [ofNum] at hx
  | succ d ih =>
      intro n x hx
      rcases List.mem_cons.mp hx with h | h
      · subst h
        exact ⟨Nat.succ_le_succ (Nat.zero_le _),
          Nat.succ_le_of_lt (Nat.mod_lt _ hres)⟩
      · exact ih (n / res) x h

theorem toNum_lt (res : ℕ) (hres : 1 ≤ res) :
    ∀ l, inRange res l → toNum res l < res ^ l.length := by
  intro l
  induction l with
  | nil => intro _; simp [toNum]
  | cons p ps ih =>
      intro h
      obtain ⟨h1, h2⟩ := h p (List.mem_cons_self p ps)
      have hps := ih (fun x hx => h x (List.mem_cons_of_mem _ hx))
      simp only [toNum, List.length_cons]
      calc (p - 1) + res * toNum res ps
          < p + res * toNum res ps := by omega
        _ ≤ res + res * toNum res ps := by omega
        _ = res * (toNum res ps + 1) := by ring
        _ ≤ res * res ^ ps.length :=
            Nat.mul_le_mul_left res (Nat.succ_le_of_lt hps)
        _ = res ^ (ps.length + 1) := by ring

theorem toNum_ofNum (res : ℕ) (hres : 1 ≤ res) :
    ∀ d n, n < res ^ d → toNum res (ofNum res d n) = n := by
  intro d
  induction d with
  | zero =>
      intro n hn
      have : n = 0 := by simpa using hn
      subst this; rfl
  | succ d ih =>
      intro n hn
      simp only [ofNum, toNum, Nat.add_sub_cancel]
      rw [ih (n / res) (by
        rw [Nat.div_lt_iff_lt_mul (by omega : 0 < res)]
        calc n < res ^ (d + 1) := hn
          _ = res ^ d * res := by ring)]
      exact Nat.mod_add_div n res

theorem ofNum_toNum (res : ℕ) :
    ∀ l, inRange res l → ofNum res l.length (toNum res l) = l := by
  intro l
  induction l with
  | nil => intro _; rfl
  | cons p ps ih =>
      intro h
      obtain ⟨h1, h2⟩ := h p (List.mem_cons_self p ps)
      have hd : p - 1 < res := by omega
      simp only [toNum, List.length_cons, ofNum]
      have hm : ((p - 1) + res * toNum res ps) % res = p - 1 := by
        rw [Nat.add_mul_mod_self_left, Nat.mod_eq_of_lt hd]
      have hdv : ((p - 1) + res * toNum res ps) / res = toNum res ps := by
        rw [Nat.add_mul_div_left _ _ (by omega : 0 < res), Nat.div_eq_of_lt hd,
          Nat.zero_add]
      rw [hm, hdv, ih (fun x hx => h x (List.mem_cons_of_mem _ hx)),
        Nat.sub_add_cancel h1]

theorem toNum_all_max (res : ℕ) (hres : 1 ≤ res) :
    ∀ l, (∀ x ∈ l, x = res) → toNum res l = res ^ l.length - 1 := by
  intro l
  induction l with
  | nil => intro _; rfl
  | cons p ps ih =>
      intro h
      have hp : p = res := h p (List.mem_cons_self p ps)
      have hps := ih (fun x hx => h x (List.mem_cons_of_mem _ hx))
      have hpow : 1 ≤ res ^ ps.length := Nat.one_le_pow _ _ (by omega)
      obtain ⟨B, hB⟩ : ∃ B, res ^ ps.length = B + 1 :=
        ⟨res ^ ps.length - 1, by omega⟩
      simp only [toNum, List.length_cons, hps, hp]
      have hpow2 : res ^ (ps.length + 1) = res * (B + 1) := by
        rw [← hB]; ring
      rw [hB, hpow2]
      have : res * (B + 1) = res * B + res := by ring
      rw [this]
      have : res * (B + 1 - 1) = res * B := by simp
      rw [this]
      omega

theorem exists_lt_of_toNum_lt (res : ℕ) (hres : 1 ≤ res) (l : List ℕ)
    (hin : inRange res l) (h : toNum res l < res ^ l.length - 1) :
    ∃ x ∈ l, x < res := by
  by_contra hc
  push_neg at hc
  have : ∀ x ∈ l, x = res := fun x hx => le_antisymm (hin x hx).2 (hc x hx)
  rw [toNum_all_max res hres l this] at h
  omega

theorem toNum_set_dec (res : ℕ) :
    ∀ (l : List ℕ) (i : ℕ), i < l.length → 2 ≤ l.getD i 0 →
      toNum res l = toNum res (l.set i (l.getD i 0 - 1)) + res ^ i := by
  intro l
  induction l with
  | nil => intro i hi; simp at hi
  | cons p ps ih =>
      intro i hi h2
      cases i with
      | zero =>
          simp only [List.getD_cons_zero] at h2
          simp only [List.getD_cons_zero, List.set_cons_zero, toNum, pow_zero]
          omega
      | succ i =>
          simp only [List.getD_cons_succ] at h2
          have hi' : i < ps.length := Nat.lt_of_succ_lt_succ (by simpa using hi)
          simp only [List.getD_cons_succ, List.set_cons_succ, toNum]
          rw [ih i hi' h2]
          ring

theorem toNum_inc (res : ℕ) (hres : 1 ≤ res) :
    ∀ (m : ℕ) (l : List ℕ), m < l.length → (∀ i, i < m → l.getD i 0 = res) →
      (∀ x ∈ l, 1 ≤ x) →
      toNum res (List.replicate m 1 ++ (l.getD m 0 + 1) :: l.drop (m + 1)) =
        toNum res l + 1 := by
  intro m
  induction m with
  | zero =>
      intro l hl _ hone
      cases l with
      | nil => simp at hl
      | cons p ps =>
          have hp : 1 ≤ p := hone p (List.mem_cons_self p ps)
          simp only [List.replicate, List.nil_append, List.getD_cons_zero,
            List.drop_succ_cons, List.drop_zero, toNum]
          omega
  | succ m ih =>
      intro l hl hfull hone
      cases l with
      | nil => simp at hl
      | cons p ps =>
          have hp : p = res := by
            have := hfull 0 (Nat.succ_pos m)
            simpa using this
          have hih := ih ps (Nat.lt_of_succ_lt_succ (by simpa using hl))
            (fun i hi => by
              have := hfull (i + 1) (Nat.succ_lt_succ hi)
              simpa using this)
            (fun x hx => hone x (List.mem_cons_of_mem _ hx))
          simp only [List.replicate_succ, List.cons_append, List.getD_cons_succ,
            List.drop_succ_cons, toNum, List.append_eq] at hih ⊢
          rw [hih]
          have h1 : (1:ℕ) - 1 = 0 := rfl
          rw [h1, hp]
          have h2 : res * (toNum res ps + 1) = res * toNum res ps + res := by ring
          omega

theorem firstBelow_spec (res : ℕ) :
    ∀ l : List ℕ, (∃ x ∈ l, x < res) →
      firstBelow res l < l.length ∧ l.getD (firstBelow res l) 0 < res ∧
        ∀ i, i < firstBelow res l → ¬ l.getD i 0 < res := by
  intro l
  induction l with
  | nil => intro h; simp at h
  | cons p ps ih =>
      intro h
      by_cases hp : p < res
      · refine ⟨?_, ?_, ?_⟩
        · simp [firstBelow, hp]
        · simpa [firstBelow, hp] using hp
        · intro i hi
          simp [firstBelow, hp] at hi
      · have hex : ∃ x ∈ ps, x < res := by
          rcases h with ⟨x, hx, hlt⟩
          rcases List.mem_cons.mp hx with rfl | hm
          · exact absurd hlt hp
          · exact ⟨x, hm, hlt⟩
        obtain ⟨ha, hb, hc⟩ := ih hex
        have hfb : firstBelow res (p :: ps) = firstBelow res ps + 1 := by
          simp [firstBelow, hp]
        refine ⟨?_, ?_, ?_⟩
        · rw [hfb]; simpa using Nat.succ_lt_succ ha
        · rw [hfb]; simpa using hb
        · intro i hi
          rw [hfb] at hi
          cases i with
          | zero => simpa using hp
          | succ i =>
              rw [List.getD_cons_succ]
              exact hc i (Nat.lt_of_succ_lt_succ hi)

/-! ## The scan loop and `update_iterator` -/

theorem findDiff_repApp (a x y : ℕ) (u v : List ℕ) (hxy : x ≠ y) :
    ∀ m, findDiff (List.replicate m a ++ x :: u) (List.replicate m a ++ y :: v) = m := by
  intro m
  induction m with
  | zero => simp [findDiff, hxy]
  | succ m ih => simp [List.replicate_succ, findDiff, ih]

theorem scanStep_spec (res : ℕ) :
    ∀ (np a : List ℕ) (jm : ℕ), a.length = np.length → a.tail = np.tail →
      inRange res np → (∃ x ∈ np, x < res) →
      scanStep res np a jm =
        (List.replicate (firstBelow res np) 1
            ++ (np.getD (firstBelow res np) 0 + 1)
            :: np.drop (firstBelow res np + 1),
          List.replicate (firstBelow res np) 1
            ++ np.getD (firstBelow res np) 0
            :: np.drop (firstBelow res np + 1),
          jm + firstBelow res np) := by
  intro np
  induction np with
  | nil => intro a jm _ _ _ hex; simp at hex
  | cons p ps ih =>
      intro a jm hlen htail hin hex
      cases a with
      | nil => simp at hlen
      | cons q qs =>
          have hqs : qs = ps := by simpa using htail
          by_cases hp : res < p + 1
          · have hpr : p = res :=
              le_antisymm (hin p (List.mem_cons_self p ps)).2 (by omega)
            have hex2 : ∃ x ∈ ps, x < res := by
              rcases hex with ⟨x, hx, hlt⟩
              rcases List.mem_cons.mp hx with rfl | hm
              · omega
              · exact ⟨x, hm, hlt⟩
            have hr := ih qs (jm + 1) (by rw [hqs]) (by rw [hqs])
              (fun x hx => hin x (List.mem_cons_of_mem _ hx)) hex2
            have hfb : firstBelow res (p :: ps) = firstBelow res ps + 1 := by
              simp [firstBelow, show ¬ p < res by omega]
            simp only [scanStep, if_pos hp, hr, hfb, List.replicate_succ,
              List.cons_append, List.getD_cons_succ, List.drop_succ_cons]
            have hj : jm + 1 + firstBelow res ps = jm + (firstBelow res ps + 1) := by
              omega
            rw [hj]
          · have hplt : p < res := by omega
            have hfb : firstBelow res (p :: ps) = 0 := by
              simp [firstBelow, hplt]
            simp only [scanStep, if_neg hp, hfb, List.replicate,
              List.nil_append, List.getD_cons_zero, List.drop_succ_cons,
              List.drop_zero, hqs, Nat.add_zero]

theorem update_iterator_spec (res : ℕ) (s : IterState)
    (hlen : (adjusted s).length = s.nextPos.length)
    (htail : (adjusted s).tail = s.nextPos.tail)
    (hin : inRange res s.nextPos)
    (hex : ∃ x ∈ s.nextPos, x < res) :
    update_iterator res s =
      (⟨List.replicate (firstBelow res s.nextPos) 1
          ++ (s.nextPos.getD (firstBelow res s.nextPos) 0 + 1)
          :: s.nextPos.drop (firstBelow res s.nextPos + 1),
        List.replicate (firstBelow res s.nextPos) 1
          ++ s.nextPos.getD (firstBelow res s.nextPos) 0
          :: s.nextPos.drop (firstBelow res s.nextPos + 1),
        firstBelow res s.nextPos⟩,
        firstBelow res s.nextPos) := by
  unfold update_iterator
  rw [scanStep_spec res s.nextPos (adjusted s) 0 hlen htail hin hex]
  simp only [Nat.zero_add]
  rw [findDiff_repApp 1 (s.nextPos.getD (firstBelow res s.nextPos) 0 + 1)
    (s.nextPos.getD (firstBelow res s.nextPos) 0) _ _ (Nat.succ_ne_self _)]

/-- Master invariant of the enumerator: after `j ≤ resolution^dim - 1` calls
from the all-ones state, `nextPos` is the position of odometer rank `j` and
(for `j ≥ 1`) the state is `nextPos` together with `jumpFrom = nextPos - e k`
and `jump = k`, where `k` is the axis returned by the last call; moreover
`k < dim`, `nextPos[k] ≥ 2`, and every coordinate below `k` equals `1`. -/
theorem iterTraj_inv (res dim : ℕ) (hres : 1 ≤ res) (hdim : 1 ≤ dim) :
    ∀ j, j + 1 ≤ res ^ dim →
      (iterTraj res dim j).nextPos = ofNum res dim j ∧
      (1 ≤ j →
        iterTraj res dim j =
          ⟨ofNum res dim j,
            (ofNum res dim j).set (iterAxis res dim (j - 1))
              ((ofNum res dim j).getD (iterAxis res dim (j - 1)) 0 - 1),
            iterAxis res dim (j - 1)⟩ ∧
          iterAxis res dim (j - 1) < dim ∧
          2 ≤ (ofNum res dim j).getD (iterAxis res dim (j - 1)) 0 ∧
          ∀ i, i < iterAxis res dim (j - 1) → (ofNum res dim j).getD i 0 = 1) := by
  intro j
  induction j with
  | zero =>
      intro _
      refine ⟨?_, fun h => absurd h (by omega)⟩
      simp [iterTraj, initIter, ofNum_zero]
  | succ j ih =>
      intro hj
      obtain ⟨ihpos, ihgood⟩ := ih (by omega)
      have hlen_np : (ofNum res dim j).length = dim := ofNum_length res dim j
      have hin_np : inRange res (ofNum res dim j) := ofNum_inRange res hres dim j
      have htoNum : toNum res (ofNum res dim j) = j :=
        toNum_ofNum res hres dim j (by omega)
      have hex : ∃ x ∈ ofNum res dim j, x < res := by
        apply exists_lt_of_toNum_lt res hres _ hin_np
        rw [htoNum, hlen_np]
        omega
      have hadj : (adjusted (iterTraj res dim j)).length = (ofNum res dim j).length ∧
          (adjusted (iterTraj res dim j)).tail = (ofNum res dim j).tail := by
        rcases Nat.eq_zero_or_pos j with rfl | hj1
        · constructor <;> simp [iterTraj, initIter, adjusted, ofNum_zero]
        · obtain ⟨hst, hk, h2, _⟩ := ihgood hj1
          rcases Nat.eq_zero_or_pos (iterAxis res dim (j - 1)) with hk0 | hkpos
          · rw [hst]
            constructor
            · simp [adjusted, hk0]
            · simp [adjusted, hk0, tail_set_zero]
          · rw [hst]
            have hklt : iterAxis res dim (j - 1) < (ofNum res dim j).length := by
              rw [hlen_np]; exact hk
            have hset : ((ofNum res dim j).set (iterAxis res dim (j - 1))
                  ((ofNum res dim j).getD (iterAxis res dim (j - 1)) 0 - 1)).set
                  (iterAxis res dim (j - 1))
                  (((ofNum res dim j).set (iterAxis res dim (j - 1))
                    ((ofNum res dim j).getD (iterAxis res dim (j - 1)) 0 - 1)).getD
                      (iterAxis res dim (j - 1)) 0 + 1) = ofNum res dim j := by
              rw [list_getD_set_self _ _ _ hklt, List.set_set]
              have : (ofNum res dim j).getD (iterAxis res dim (j - 1)) 0 - 1 + 1 =
                  (ofNum res dim j).getD (iterAxis res dim (j - 1)) 0 := by omega
              rw [this]
              exact list_set_self _ _ hklt
            have hadjeq : adjusted
                ⟨ofNum res dim j,
                  (ofNum res dim j).set (iterAxis res dim (j - 1))
                    ((ofNum res dim j).getD (iterAxis res dim (j - 1)) 0 - 1),
                  iterAxis res dim (j - 1)⟩ = ofNum res dim j := by
              simp only [adjusted]
              rw [if_pos hkpos]
              exact hset
            rw [hadjeq]
            exact ⟨rfl, rfl⟩
      have hspec := update_iterator_spec res (iterTraj res dim j)
        (by rw [ihpos]; exact hadj.1) (by rw [ihpos]; exact hadj.2)
        (by rw [ihpos]; exact hin_np) (by rw [ihpos]; exact hex)
      rw [ihpos] at hspec
      obtain ⟨hmlt, hmres, hmfull⟩ := firstBelow_spec res (ofNum res dim j) hex
      have hmd : firstBelow res (ofNum res dim j) < dim := by omega
      have hone_np : ∀ x ∈ ofNum res dim j, 1 ≤ x := fun x hx => (hin_np x hx).1
      have hfull_res : ∀ i, i < firstBelow res (ofNum res dim j) →
          (ofNum res dim j).getD i 0 = res := by
        intro i hi
        have h1 := hmfull i hi
        have h2 : (ofNum res dim j).getD i 0 ∈ ofNum res dim j :=
          getD_mem_of_lt _ i (by omega)
        have := (hin_np _ h2).2
        omega
      have hin2 : inRange res (List.replicate (firstBelow res (ofNum res dim j)) 1
          ++ ((ofNum res dim j).getD (firstBelow res (ofNum res dim j)) 0 + 1)
          :: (ofNum res dim j).drop (firstBelow res (ofNum res dim j) + 1)) := by
        intro x hx
        rcases List.mem_append.mp hx with hx | hx
        · rw [List.eq_of_mem_replicate hx]
          exact ⟨le_refl 1, hres⟩
        · rcases List.mem_cons.mp hx with rfl | hx
          · exact ⟨by omega, by omega⟩
          · exact hin_np x (List.drop_subset _ _ hx)
      have hlen2 : (List.replicate (firstBelow res (ofNum res dim j)) 1
          ++ ((ofNum res dim j).getD (firstBelow res (ofNum res dim j)) 0 + 1)
          :: (ofNum res dim j).drop (firstBelow res (ofNum res dim j) + 1)).length = dim := by
        simp only [List.length_append, List.length_replicate, List.length_cons,
          List.length_drop, hlen_np]
        omega
      have htoNum2 : toNum res (List.replicate (firstBelow res (ofNum res dim j)) 1
          ++ ((ofNum res dim j).getD (firstBelow res (ofNum res dim j)) 0 + 1)
          :: (ofNum res dim j).drop (firstBelow res (ofNum res dim j) + 1)) = j + 1 := by
        rw [toNum_inc res hres _ _ hmlt hfull_res hone_np, htoNum]
      have hofNum2 : ofNum res dim (j + 1) =
          List.replicate (firstBelow res (ofNum res dim j)) 1
          ++ ((ofNum res dim j).getD (firstBelow res (ofNum res dim j)) 0 + 1)
          :: (ofNum res dim j).drop (firstBelow res (ofNum res dim j) + 1) := by
        have h := ofNum_toNum res _ hin2
        rw [hlen2, htoNum2] at h
        exact h
      have htraj : iterTraj res dim (j + 1) =
          ⟨List.replicate (firstBelow res (ofNum res dim j)) 1
            ++ ((ofNum res dim j).getD (firstBelow res (ofNum res dim j)) 0 + 1)
            :: (ofNum res dim j).drop (firstBelow res (ofNum res dim j) + 1),
          List.replicate (firstBelow res (ofNum res dim j)) 1
            ++ (ofNum res dim j).getD (firstBelow res (ofNum res dim j)) 0
            :: (ofNum res dim j).drop (firstBelow res (ofNum res dim j) + 1),
          firstBelow res (ofNum res dim j)⟩ := by
        show (update_iterator res (iterTraj res dim j)).1 = _
        rw [hspec]
      have haxis : iterAxis res dim j = firstBelow res (ofNum res dim j) := by
        show (update_iterator res (iterTraj res dim j)).2 = _
        rw [hspec]
      have hge1 : 1 ≤ (ofNum res dim j).getD (firstBelow res (ofNum res dim j)) 0 :=
        hone_np _ (getD_mem_of_lt _ _ hmlt)
      have hgd2 : (ofNum res dim (j + 1)).getD (firstBelow res (ofNum res dim j)) 0 =
          (ofNum res dim j).getD (firstBelow res (ofNum res dim j)) 0 + 1 := by
        rw [hofNum2]
        have h := getD_repApp_ge 1 0
          (((ofNum res dim j).getD (firstBelow res (ofNum res dim j)) 0 + 1)
            :: (ofNum res dim j).drop (firstBelow res (ofNum res dim j) + 1))
          (firstBelow res (ofNum res dim j)) 0
        simpa using h
      have hjf2 : (ofNum res dim (j + 1)).set (firstBelow res (ofNum res dim j))
          ((ofNum res dim (j + 1)).getD (firstBelow res (ofNum res dim j)) 0 - 1) =
          List.replicate (firstBelow res (ofNum res dim j)) 1
            ++ (ofNum res dim j).getD (firstBelow res (ofNum res dim j)) 0
            :: (ofNum res dim j).drop (firstBelow res (ofNum res dim j) + 1) := by
        rw [hgd2, hofNum2]
        have h1 : (ofNum res dim j).getD (firstBelow res (ofNum res dim j)) 0 + 1 - 1 =
            (ofNum res dim j).getD (firstBelow res (ofNum res dim j)) 0 := by omega
        rw [h1]
        exact set_repApp 1 _ _ _ _
      refine ⟨?_, fun _ => ⟨?_, ?_, ?_, ?_⟩⟩
      · rw [htraj, hofNum2]
      · simp only [Nat.add_sub_cancel]
        rw [htraj, haxis, hjf2, hofNum2]
      · simp only [Nat.add_sub_cancel]
        rw [haxis]
        exact hmd
      · simp only [Nat.add_sub_cancel]
        rw [haxis, hgd2]
        omega
      · intro i hi
        simp only [Nat.add_sub_cancel] at hi ⊢
        rw [haxis] at hi
        rw [hofNum2]
        exact getD_repApp_lt 1 0 _ _ i hi

/-! ## Reading vec2index as a mixed-radix value -/

theorem toNum_append_single (res p : ℕ) :
    ∀ l : List ℕ, toNum res (l ++ [p]) = toNum res l + (p - 1) * res ^ l.length := by
  intro l
  induction l with
  | nil => simp [toNum]
  | cons q qs ih =>
      simp only [List.cons_append, toNum, List.append_eq, ih, List.length_cons]
      ring

theorem vec2index_foldl (res : ℕ) :
    ∀ (l : List ℕ) (acc : ℕ),
      l.foldl (fun a q => a * res + (q - 1)) acc =
        acc * res ^ l.length + toNum res l.reverse := by
  intro l
  induction l with
  | nil => intro acc; simp [toNum]
  | cons p ps ih =>
      intro acc
      simp only [List.foldl_cons, ih, List.reverse_cons, toNum_append_single,
        List.length_cons, List.length_reverse]
      ring

theorem vec2index_eq_toNum_reverse (res : ℕ) :
    ∀ l : List ℕ, vec2index l res = toNum res l.reverse := by
  intro l
  cases l with
  | nil => rfl
  | cons p ps =>
      show ps.foldl _ (p - 1) = _
      rw [vec2index_foldl]
      simp only [List.reverse_cons, toNum_append_single, List.length_reverse]
      ring

theorem inRange_reverse (res : ℕ) (l : List ℕ) (h : inRange res l) :
    inRange res l.reverse := fun x hx => h x (List.mem_reverse.mp hx)

theorem vec2index_inj (res : ℕ) (hres : 1 ≤ res) (p q : List ℕ)
    (hp : inRange res p) (hq : inRange res q) (hl : p.length = q.length)
    (h : vec2index p res = vec2index q res) : p = q := by
  rw [vec2index_eq_toNum_reverse, vec2index_eq_toNum_reverse] at h
  have h1 := ofNum_toNum res p.reverse (inRange_reverse res p hp)
  have h2 := ofNum_toNum res q.reverse (inRange_reverse res q hq)
  have hlen : p.reverse.length = q.reverse.length := by
    simp [List.length_reverse, hl]
  rw [h, hlen] at h1
  exact List.reverse_injective (h1.symm.trans h2)

theorem vec2index_formula (res : ℕ) :
    ∀ pos : List ℕ,
      vec2index pos res =
        ∑ i in Finset.range pos.length, (pos.getD i 0 - 1) * res ^ (pos.length - 1 - i) := by
  intro pos
  induction pos with
  | nil => simp [vec2index]
  | cons p ps ih =>
      have hL : vec2index (p :: ps) res = (p - 1) * res ^ ps.length + vec2index ps res := by
        show ps.foldl _ (p - 1) = _
        rw [vec2index_foldl, vec2index_eq_toNum_reverse]
      rw [hL, ih, List.length_cons, Finset.sum_range_succ']
      have hstep : ∀ i ∈ Finset.range ps.length,
          ((p :: ps).getD (i + 1) 0 - 1) * res ^ (ps.length + 1 - 1 - (i + 1)) =
            (ps.getD i 0 - 1) * res ^ (ps.length - 1 - i) := by
        intro i _
        have hexp : ps.length + 1 - 1 - (i + 1) = ps.length - 1 - i := by omega
        rw [List.getD_cons_succ, hexp]
      rw [Finset.sum_congr rfl hstep]
      have h0 : ((p :: ps).getD 0 0 - 1) * res ^ (ps.length + 1 - 1 - 0) =
          (p - 1) * res ^ ps.length := by
        simp
      rw [h0]
      ring

/-- C3: `vec2index` computes the big-endian mixed-radix offset
`Σ_i (pos[i]-1) * resolution^(dim-1-i)`, its values are below
`resolution^dim`, and it is a bijection between `[1,resolution]^dim` and
`0..resolution^dim - 1` with inverse `index2vec`. -/
theorem C3_vec2index_bijection (res dim : ℕ) (hres : 1 ≤ res) (hdim : 1 ≤ dim) :
    (∀ pos : List ℕ, pos.length = dim → inRange res pos →
      vec2index pos res =
        ∑ i in Finset.range dim, (pos.getD i 0 - 1) * res ^ (dim - 1 - i) ∧
      vec2index pos res < res ^ dim ∧
      index2vec res dim (vec2index pos res) = pos) ∧
    (∀ n, n < res ^ dim →
      (index2vec res dim n).length = dim ∧ inRange res (index2vec res dim n) ∧
        vec2index (index2vec res dim n) res = n) := by
  constructor
  · intro pos hlen hin
    refine ⟨?_, ?_, ?_⟩
    · rw [vec2index_formula res pos, hlen]
    · have h := toNum_lt res hres pos.reverse (inRange_reverse res pos hin)
      rw [vec2index_eq_toNum_reverse]
      rw [List.length_reverse, hlen] at h
      exact h
    · unfold index2vec
      rw [vec2index_eq_toNum_reverse]
      have h := ofNum_toNum res pos.reverse (inRange_reverse res pos hin)
      rw [List.length_reverse, hlen] at h
      rw [h, List.reverse_reverse]
  · intro n hn
    refine ⟨?_, ?_, ?_⟩
    · simp [index2vec, ofNum_length]
    · exact inRange_reverse res _ (ofNum_inRange res hres dim n)
    · rw [vec2index_eq_toNum_reverse]
      simp only [index2vec, List.reverse_reverse]
      exact toNum_ofNum res hres dim n hn

/-- Witness for C3 at `resolution = 2`, `dim = 2`, `pos = [2, 1]`. -/
theorem C3_vec2index_bijection_witness :
    vec2index [2, 1] 2 =
      ∑ i in Finset.range 2, (([2, 1].getD i 0 : ℕ) - 1) * 2 ^ (2 - 1 - i) ∧
    vec2index [2, 1] 2 < 2 ^ 2 ∧
    index2vec 2 2 (vec2index [2, 1] 2) = [2, 1] :=
  (C3_vec2index_bijection 2 2 (by decide) (by decide)).1 [2, 1] (by decide)
    (by decide)

/-! ## The correction loop as a single subtraction -/

/-- Provided no correction reads the entry being accumulated, the
sequential correction loop equals one update subtracting the full sum. -/
theorem corrFold_eq {T : Type} [CommRing T] (nextC : ℕ) (jf : List ℕ)
    (coef : ℕ → T) (prev : ℕ → ℕ) :
    ∀ (axes : List ℕ) (H : ℕ → T),
      (∀ i ∈ axes, 1 < jf.getD i 0 → prev i ≠ nextC) →
      corrFold nextC axes jf coef prev H =
        Function.update H nextC
          (H nextC - (axes.map
            (fun i => if 1 < jf.getD i 0 then coef i * H (prev i) else 0)).sum) := by
  intro axes
  induction axes with
  | nil =>
      intro H _
      simp [corrFold, Function.update_eq_self]
  | cons a rest ih =>
      intro H hne
      by_cases ha : 1 < jf.getD a 0
      · have hprev : prev a ≠ nextC := hne a (List.mem_cons_self a rest) ha
        have hstep : corrFold nextC (a :: rest) jf coef prev H =
            corrFold nextC rest jf coef prev
              (Function.update H nextC (H nextC - coef a * H (prev a))) := by
          simp only [corrFold, List.foldl_cons]
          rw [if_pos ha]
        rw [hstep, ih _ (fun i hi hgi => hne i (List.mem_cons_of_mem a hi) hgi)]
        have hmap : (rest.map (fun i =>
            if 1 < jf.getD i 0 then
              coef i * Function.update H nextC (H nextC - coef a * H (prev a)) (prev i)
            else 0)) =
            (rest.map (fun i => if 1 < jf.getD i 0 then coef i * H (prev i) else 0)) := by
          apply List.map_congr_left
          intro i hi
          by_cases hgi : 1 < jf.getD i 0
          · rw [if_pos hgi, if_pos hgi,
              Function.update_noteq (hne i (List.mem_cons_of_mem a hi) hgi) _ H]
          · rw [if_neg hgi, if_neg hgi]
        rw [hmap, Function.update_idem, List.map_cons, List.sum_cons, if_pos ha,
          Function.update_same]
        ring_nf
      · have hstep : corrFold nextC (a :: rest) jf coef prev H =
            corrFold nextC rest jf coef prev H := by
          simp only [corrFold, List.foldl_cons]
          rw [if_neg ha]
        rw [hstep, ih H (fun i hi hgi => hne i (List.mem_cons_of_mem a hi) hgi),
          List.map_cons, List.sum_cons, if_neg ha, zero_add]

/-- Every fill loop advances its iterator exactly like the bare iterator
trajectory (each variant's step keeps the iterator in its second
component). -/
theorem traj_snd {T : Type} (res dim : ℕ)
    (f : ((ℕ → T) × IterState) → ((ℕ → T) × IterState))
    (hf : ∀ st, (f st).2 = (update_iterator res st.2).1) (H0 : ℕ → T) :
    ∀ j, ((f^[j]) (H0, initIter dim)).2 = iterTraj res dim j := by
  intro j
  induction j with
  | zero => rfl
  | succ j ih =>
      rw [Function.iterate_succ_apply', hf, ih]
      rfl

theorem hermStep_snd {T : Type} [CommRing T] (R y : List T) (res dim : ℕ)
    (st : (ℕ → T) × IterState) :
    (hermStep R y res dim st).2 = (update_iterator res st.2).1 := rfl

theorem interfStep_snd {T : Type} [Field T] (R : List T) (intsqrt : ℕ → T)
    (res dim num_modes : ℕ) (st : (ℕ → T) × IterState) :
    (interfStep R intsqrt res dim num_modes st).2 = (update_iterator res st.2).1 := by
  unfold interfStep
  dsimp only
  split <;> rfl

theorem sqzStep_snd {T : Type} [Field T] (R : List T) (intsqrt : ℕ → T)
    (res dim : ℕ) (st : (ℕ → T) × IterState) :
    (sqzStep R intsqrt res dim st).2 = (update_iterator res st.2).1 := by
  unfold sqzStep
  dsimp only
  split <;> rfl

theorem tmsStep_snd {T : Type} [Field T] (R : List T) (intsqrt : ℕ → T)
    (res dim : ℕ) (st : (ℕ → T) × IterState) :
    (tmsStep R intsqrt res dim st).2 = (update_iterator res st.2).1 := by
  unfold tmsStep
  dsimp only
  split <;> rfl

/-- C1: starting from the all-ones state, the `resolution^dim - 1` calls to
`update_iterator` drive `nextPos` through the positions of odometer rank
`0, 1, 2, …` (strict increment, axis 0 fastest-varying), visiting every
multi-index of `[1,res]^dim` exactly once; at every step the same-axis
predecessor (`jumpFrom`) and every cross-axis predecessor
(`jumpFrom - e i` for axes `i` with `jumpFrom[i] > 1`) appear strictly
earlier in the traversal (index `0` being the seed entry). -/
theorem C1_enumerator_complete (res dim : ℕ) (hres : 1 ≤ res) (hdim : 1 ≤ dim) :
    (∀ j, j < res ^ dim → (iterTraj res dim j).nextPos = ofNum res dim j) ∧
    (∀ j, j + 1 < res ^ dim →
      toNum res (iterTraj res dim (j + 1)).nextPos =
        toNum res (iterTraj res dim j).nextPos + 1) ∧
    (∀ p : List ℕ, p.length = dim → inRange res p →
      ∃! j, j < res ^ dim ∧ (iterTraj res dim j).nextPos = p) ∧
    (∀ j, 1 ≤ j → j < res ^ dim →
      (∃ t, t < j ∧ (iterTraj res dim t).nextPos = (iterTraj res dim j).jumpFrom) ∧
      (∀ i, i < dim → 1 < (iterTraj res dim j).jumpFrom.getD i 0 →
        ∃ t, t < j ∧
          (iterTraj res dim t).nextPos = subAt (iterTraj res dim j).jumpFrom i)) := by
  have hpos : ∀ j, j < res ^ dim → (iterTraj res dim j).nextPos = ofNum res dim j :=
    fun j hj => (iterTraj_inv res dim hres hdim j (by omega)).1
  refine ⟨hpos, ?_, ?_, ?_⟩
  · intro j hj
    rw [hpos j (by omega), hpos (j + 1) (by omega),
      toNum_ofNum res hres dim j (by omega), toNum_ofNum res hres dim (j + 1) (by omega)]
  · intro p hlen hin
    have hplt : toNum res p < res ^ dim := by
      have h := toNum_lt res hres p hin
      rwa [hlen] at h
    refine ⟨toNum res p, ⟨hplt, ?_⟩, ?_⟩
    · rw [hpos (toNum res p) hplt]
      have h := ofNum_toNum res p hin
      rwa [hlen] at h
    · intro j' hj'
      obtain ⟨hj'lt, hj'eq⟩ := hj'
      rw [hpos j' hj'lt] at hj'eq
      have h := toNum_ofNum res hres dim j' hj'lt
      rw [hj'eq] at h
      exact h.symm
  · intro j hj1 hj
    obtain ⟨hst, hk, h2, _⟩ := (iterTraj_inv res dim hres hdim j (by omega)).2 hj1
    set k := iterAxis res dim (j - 1) with hkdef
    set np := ofNum res dim j with hnpdef
    set jf := np.set k (np.getD k 0 - 1) with hjfdef
    have hlenj : np.length = dim := ofNum_length res dim j
    have hinj : inRange res np := ofNum_inRange res hres dim j
    have htn : toNum res np = j := toNum_ofNum res hres dim j (by omega)
    have hklt : k < np.length := by rw [hlenj]; exact hk
    have hjf_len : jf.length = dim := by rw [hjfdef, List.length_set, hlenj]
    have hjf_in : inRange res jf := by
      intro x hx
      rw [hjfdef] at hx
      rcases List.mem_or_eq_of_mem_set hx with hx | rfl
      · exact hinj x hx
      · have hb := (hinj _ (getD_mem_of_lt np k hklt)).2
        constructor <;> omega
    have htnjf : toNum res np = toNum res jf + res ^ k := by
      rw [hjfdef]
      exact toNum_set_dec res np k hklt h2
    have hrk : 1 ≤ res ^ k := Nat.one_le_pow _ _ (by omega)
    constructor
    · refine ⟨toNum res jf, by omega, ?_⟩
      rw [hpos (toNum res jf) (by omega), hst]
      have h := ofNum_toNum res jf hjf_in
      rw [hjf_len] at h
      exact h
    · intro i hi hgt
      have hgt2 : 1 < jf.getD i 0 := by rw [hst] at hgt; exact hgt
      have hilt : i < jf.length := by rw [hjf_len]; exact hi
      have hsub_in : inRange res (subAt jf i) := by
        intro x hx
        simp only [subAt] at hx
        rcases List.mem_or_eq_of_mem_set hx with hx | rfl
        · exact hjf_in x hx
        · have hb := (hjf_in _ (getD_mem_of_lt jf i hilt)).2
          constructor <;> omega
      have hsub_len : (subAt jf i).length = dim := by
        simp only [subAt]
        rw [List.length_set, hjf_len]
      have htnsub : toNum res jf = toNum res (subAt jf i) + res ^ i :=
        toNum_set_dec res jf i hilt hgt2
      have hri : 1 ≤ res ^ i := Nat.one_le_pow _ _ (by omega)
      refine ⟨toNum res (subAt jf i), by omega, ?_⟩
      rw [hpos (toNum res (subAt jf i)) (by omega), hst]
      have h := ofNum_toNum res (subAt jf i) hsub_in
      rw [hsub_len] at h
      exact h

/-- Witness for C1 at `resolution = 2`, `dim = 2`: position after three calls
and availability of the predecessors of the last step. -/
theorem C1_enumerator_complete_witness :
    (iterTraj 2 2 3).nextPos = ofNum 2 2 3 ∧
    (∃ t, t < 3 ∧ (iterTraj 2 2 t).nextPos = (iterTraj 2 2 3).jumpFrom) :=
  ⟨(C1_enumerator_complete 2 2 (by decide) (by decide)).1 3 (by decide),
    ((C1_enumerator_complete 2 2 (by decide) (by decide)).2.2.2 3 (by decide)
      (by decide)).1⟩

/-- C5: after every call to `update_iterator` during a fill, the returned
axis `k` is the least axis where `nextPos` and `jumpFrom` differ, and
`jumpFrom = nextPos - e k` (the same-axis predecessor), with
`nextPos[k] ≥ 2`. -/
theorem C5_jumpFrom_is_same_axis_predecessor (res dim j : ℕ) (hres : 1 ≤ res)
    (hdim : 1 ≤ dim) (hj : j < res ^ dim - 1) :
    (∀ i, i < iterAxis res dim j →
      (iterTraj res dim (j + 1)).nextPos.getD i 0 =
        (iterTraj res dim (j + 1)).jumpFrom.getD i 0) ∧
    (iterTraj res dim (j + 1)).nextPos.getD (iterAxis res dim j) 0 ≠
      (iterTraj res dim (j + 1)).jumpFrom.getD (iterAxis res dim j) 0 ∧
    (iterTraj res dim (j + 1)).jumpFrom =
      (iterTraj res dim (j + 1)).nextPos.set (iterAxis res dim j)
        ((iterTraj res dim (j + 1)).nextPos.getD (iterAxis res dim j) 0 - 1) ∧
    2 ≤ (iterTraj res dim (j + 1)).nextPos.getD (iterAxis res dim j) 0 := by
  have hpow : 1 ≤ res ^ dim := Nat.one_le_pow _ _ (by omega)
  obtain ⟨hst, hk, h2, _⟩ :=
    (iterTraj_inv res dim hres hdim (j + 1) (by omega)).2 (by omega)
  simp only [Nat.add_sub_cancel] at hst hk h2
  have hklt : iterAxis res dim j < (ofNum res dim (j + 1)).length := by
    rw [ofNum_length]; exact hk
  refine ⟨?_, ?_, ?_, ?_⟩
  · intro i hik
    rw [hst]
    exact (list_getD_set_ne _ _ _ _ (by omega)).symm
  · rw [hst]
    have hself := list_getD_set_self (ofNum res dim (j + 1)) (iterAxis res dim j)
      ((ofNum res dim (j + 1)).getD (iterAxis res dim j) 0 - 1) hklt
    show (ofNum res dim (j + 1)).getD (iterAxis res dim j) 0 ≠
      ((ofNum res dim (j + 1)).set (iterAxis res dim j)
        ((ofNum res dim (j + 1)).getD (iterAxis res dim j) 0 - 1)).getD
        (iterAxis res dim j) 0
    rw [hself]
    omega
  · rw [hst]
  · rw [hst]
    exact h2

/-- Witness for C5 at `resolution = 2`, `dim = 2`, first call. -/
theorem C5_jumpFrom_is_same_axis_predecessor_witness :
    (0 : ℕ) < 2 ^ 2 - 1 ∧
    (iterTraj 2 2 1).jumpFrom =
      (iterTraj 2 2 1).nextPos.set (iterAxis 2 2 0)
        ((iterTraj 2 2 1).nextPos.getD (iterAxis 2 2 0) 0 - 1) :=
  ⟨by decide,
    (C5_jumpFrom_is_same_axis_predecessor 2 2 0 (by decide) (by decide)
      (by decide)).2.2.1⟩

/-- C10: on every iteration of a fill loop the axis `k` returned by
`update_iterator` satisfies `k < dim`, the deferred-carry index stored in
`jump` for the next call is `< dim`, the index `nextPos[k] - 1` used to read
the `intsqrt` table of size `resolution + 1` is in bounds, and every access
`R[dim*k + i]` with `i < dim` stays below `dim*dim`. -/
theorem C10_axis_and_access_bounds (res dim j : ℕ) (hres : 1 ≤ res)
    (hdim : 1 ≤ dim) (hj : j < res ^ dim - 1) :
    iterAxis res dim j < dim ∧
    (iterTraj res dim (j + 1)).jump < dim ∧
    (iterTraj res dim (j + 1)).nextPos.getD (iterAxis res dim j) 0 - 1 < res + 1 ∧
    ∀ i, i < dim → dim * iterAxis res dim j + i < dim * dim := by
  have hpow : 1 ≤ res ^ dim := Nat.one_le_pow _ _ (by omega)
  obtain ⟨hst, hk, h2, _⟩ :=
    (iterTraj_inv res dim hres hdim (j + 1) (by omega)).2 (by omega)
  simp only [Nat.add_sub_cancel] at hst hk h2
  refine ⟨hk, ?_, ?_, ?_⟩
  · rw [hst]
    exact hk
  · have hklt : iterAxis res dim j < (ofNum res dim (j + 1)).length := by
      rw [ofNum_length]; exact hk
    have hmem := getD_mem_of_lt (ofNum res dim (j + 1)) (iterAxis res dim j) hklt
    have hb := (ofNum_inRange res hres dim (j + 1) _ hmem).2
    rw [hst]
    show (ofNum res dim (j + 1)).getD (iterAxis res dim j) 0 - 1 < res + 1
    omega
  · intro i hi
    calc dim * iterAxis res dim j + i < dim * iterAxis res dim j + dim := by omega
      _ = dim * (iterAxis res dim j + 1) := by ring
      _ ≤ dim * dim := Nat.mul_le_mul_left dim (by omega)

/-- Witness for C10 at `resolution = 3`, `dim = 2`, third call (the first
call with a carry). -/
theorem C10_axis_and_access_bounds_witness :
    (2 : ℕ) < 3 ^ 2 - 1 ∧ iterAxis 3 2 2 < 2 ∧ (iterTraj 3 2 3).jump < 2 :=
  ⟨by decide,
    (C10_axis_and_access_bounds 3 2 2 (by decide) (by decide) (by decide)).1,
    (C10_axis_and_access_bounds 3 2 2 (by decide) (by decide) (by decide)).2.1⟩

/-- At every fill step, the flattened coordinate of a cross-axis predecessor
`jumpFrom - e i` differs from the coordinate being written, so reading it
during the correction loop sees the pre-step tensor. -/
theorem prevCoord_ne_nextCoord (res dim j : ℕ) (hres : 1 ≤ res) (hdim : 1 ≤ dim)
    (hj : j + 2 ≤ res ^ dim) (i : ℕ) (hi : i < dim)
    (hgt : 1 < (iterTraj res dim (j + 1)).jumpFrom.getD i 0) :
    vec2index (subAt (iterTraj res dim (j + 1)).jumpFrom i) res ≠
      vec2index (iterTraj res dim (j + 1)).nextPos res := by
  obtain ⟨hst, hk, h2, _⟩ :=
    (iterTraj_inv res dim hres hdim (j + 1) hj).2 (by omega)
  simp only [Nat.add_sub_cancel] at hst hk h2
  set k := iterAxis res dim j with hkdef
  set np := ofNum res dim (j + 1) with hnpdef
  set jf := np.set k (np.getD k 0 - 1) with hjfdef
  have hlenj : np.length = dim := ofNum_length res dim (j + 1)
  have hinj : inRange res np := ofNum_inRange res hres dim (j + 1)
  have hklt : k < np.length := by rw [hlenj]; exact hk
  have hjf_len : jf.length = dim := by rw [hjfdef, List.length_set, hlenj]
  have hjf_in : inRange res jf := by
    intro x hx
    rw [hjfdef] at hx
    rcases List.mem_or_eq_of_mem_set hx with hx | rfl
    · exact hinj x hx
    · have hb := (hinj _ (getD_mem_of_lt np k hklt)).2
      constructor <;> omega
  have hgt2 : 1 < jf.getD i 0 := by rw [hst] at hgt; exact hgt
  have hilt : i < jf.length := by rw [hjf_len]; exact hi
  have hsub_in : inRange res (subAt jf i) := by
    intro x hx
    simp only [subAt] at hx
    rcases List.mem_or_eq_of_mem_set hx with hx | rfl
    · exact hjf_in x hx
    · have hb := (hjf_in _ (getD_mem_of_lt jf i hilt)).2
      constructor <;> omega
  have hsub_len : (subAt jf i).length = dim := by
    simp only [subAt]
    rw [List.length_set, hjf_len]
  have ht1 : toNum res np = toNum res jf + res ^ k := by
    rw [hjfdef]
    exact toNum_set_dec res np k hklt h2
  have ht2 : toNum res jf = toNum res (subAt jf i) + res ^ i :=
    toNum_set_dec res jf i hilt hgt2
  have hri : 1 ≤ res ^ i := Nat.one_le_pow _ _ (by omega)
  have hrk : 1 ≤ res ^ k := Nat.one_le_pow _ _ (by omega)
  rw [hst]
  show vec2index (subAt jf i) res ≠ vec2index np res
  intro heq
  have hlists := vec2index_inj res hres (subAt jf i) np hsub_in hinj
    (by rw [hsub_len, hlenj]) heq
  have hcontra : toNum res (subAt jf i) = toNum res np := by rw [hlists]
  omega

/-- C2: every iteration of the fill loop of `hermite_multidimensional_cpp`
writes the generalized multidimensional Hermite recurrence value: with
`p = jumpFrom` and changed axis `k`, `nextPos = p + e k` and the entry
written at `flatten nextPos` equals
`H[flatten p] * y[k] − Σ_{i < dim, p[i] > 1} (p[i]−1) * R[dim*k+i] * H[flatten (p − e i)]`,
with all the reads taken in the pre-step tensor. -/
theorem C2_hermite_recurrence {T : Type} [CommRing T] (R y : List T)
    (res dim : ℕ) (init : ℕ → T) (hres : 1 ≤ res) (hdim : 1 ≤ dim)
    (j : ℕ) (hj : j < res ^ dim - 1) :
    (iterTraj res dim (j + 1)).nextPos =
      (iterTraj res dim (j + 1)).jumpFrom.set (iterAxis res dim j)
        ((iterTraj res dim (j + 1)).jumpFrom.getD (iterAxis res dim j) 0 + 1) ∧
    (hermTraj R y res dim init (j + 1)).1
        (vec2index (iterTraj res dim (j + 1)).nextPos res) =
      (hermTraj R y res dim init j).1
          (vec2index (iterTraj res dim (j + 1)).jumpFrom res)
          * y.getD (iterAxis res dim j) 0
        - ((List.range dim).map (fun i =>
            if 1 < (iterTraj res dim (j + 1)).jumpFrom.getD i 0 then
              (((iterTraj res dim (j + 1)).jumpFrom.getD i 0 - 1 : ℕ) : T)
                * R.getD (dim * iterAxis res dim j + i) 0
                * (hermTraj R y res dim init j).1
                    (vec2index (subAt (iterTraj res dim (j + 1)).jumpFrom i) res)
            else 0)).sum := by
  have hpow : 1 ≤ res ^ dim := Nat.one_le_pow _ _ (by omega)
  obtain ⟨hst, hk, h2, _⟩ :=
    (iterTraj_inv res dim hres hdim (j + 1) (by omega)).2 (by omega)
  simp only [Nat.add_sub_cancel] at hst hk h2
  have hsnd : (hermTraj R y res dim init j).2 = iterTraj res dim j := by
    show ((hermStep R y res dim)^[j] (Function.update init 0 1, initIter dim)).2 = _
    exact traj_snd res dim _ (hermStep_snd R y res dim) _ j
  have hpair : hermTraj R y res dim init j =
      ((hermTraj R y res dim init j).1, iterTraj res dim j) := by
    rw [← hsnd]
  have hstep : hermTraj R y res dim init (j + 1) =
      hermStep R y res dim (hermTraj R y res dim init j) := by
    show (hermStep R y res dim)^[j + 1] _ = _
    rw [Function.iterate_succ_apply']
    rfl
  have hfill : (hermTraj R y res dim init (j + 1)).1 =
      corrFold (vec2index (iterTraj res dim (j + 1)).nextPos res) (List.range dim)
        (iterTraj res dim (j + 1)).jumpFrom
        (fun ii => (((iterTraj res dim (j + 1)).jumpFrom.getD ii 0 - 1 : ℕ) : T)
          * R.getD (dim * iterAxis res dim j + ii) 0)
        (fun ii => vec2index (subAt (iterTraj res dim (j + 1)).jumpFrom ii) res)
        (Function.update (hermTraj R y res dim init j).1
          (vec2index (iterTraj res dim (j + 1)).nextPos res)
          ((hermTraj R y res dim init j).1
              (vec2index (iterTraj res dim (j + 1)).jumpFrom res)
            * y.getD (iterAxis res dim j) 0)) := by
    rw [hstep, hpair]
    rfl
  have hne : ∀ i ∈ List.range dim,
      1 < (iterTraj res dim (j + 1)).jumpFrom.getD i 0 →
      (fun ii => vec2index (subAt (iterTraj res dim (j + 1)).jumpFrom ii) res) i ≠
        vec2index (iterTraj res dim (j + 1)).nextPos res := by
    intro i hi hgt
    exact prevCoord_ne_nextCoord res dim j hres hdim (by omega) i
      (List.mem_range.mp hi) hgt
  constructor
  · rw [hst]
    have hklt : iterAxis res dim j < (ofNum res dim (j + 1)).length := by
      rw [ofNum_length]; exact hk
    show ofNum res dim (j + 1) =
      ((ofNum res dim (j + 1)).set (iterAxis res dim j)
        ((ofNum res dim (j + 1)).getD (iterAxis res dim j) 0 - 1)).set
        (iterAxis res dim j)
        (((ofNum res dim (j + 1)).set (iterAxis res dim j)
          ((ofNum res dim (j + 1)).getD (iterAxis res dim j) 0 - 1)).getD
          (iterAxis res dim j) 0 + 1)
    rw [list_getD_set_self _ _ _ hklt, List.set_set]
    have hv : (ofNum res dim (j + 1)).getD (iterAxis res dim j) 0 - 1 + 1 =
        (ofNum res dim (j + 1)).getD (iterAxis res dim j) 0 := by omega
    rw [hv, list_set_self _ _ hklt]
  · rw [hfill, corrFold_eq _ _ _ _ (List.range dim) _ hne, Function.update_same,
      Function.update_same]
    congr 1
    apply congrArg
    apply List.map_congr_left
    intro i hi
    by_cases hgi : 1 < (iterTraj res dim (j + 1)).jumpFrom.getD i 0
    · rw [if_pos hgi, if_pos hgi,
        Function.update_noteq (hne i hi hgi) _ (hermTraj R y res dim init j).1]
    · rw [if_neg hgi, if_neg hgi]

/-- Witness for C2: concrete fill (`resolution = 2`, `dim = 2`,
`R = [0,1,1,0]`, `y = [0,0]` over `ℤ`), first loop iteration. -/
theorem C2_hermite_recurrence_witness :
    (0 : ℕ) < 2 ^ 2 - 1 ∧
    (iterTraj 2 2 1).nextPos =
      (iterTraj 2 2 1).jumpFrom.set (iterAxis 2 2 0)
        ((iterTraj 2 2 1).jumpFrom.getD (iterAxis 2 2 0) 0 + 1) :=
  ⟨by decide,
    (C2_hermite_recurrence [0, 1, 1, 0] [0, 0] 2 2 (fun _ => (0 : ℤ))
      (by decide) (by decide) 0 (by decide)).1⟩

/-! ## Interferometer axis restriction (C6) -/

theorem length_le_sum_of_one_le : ∀ l : List ℕ, (∀ x ∈ l, 1 ≤ x) →
    l.length ≤ l.sum := by
  intro l
  induction l with
  | nil => intro _; simp
  | cons p ps ih =>
      intro h
      have hp := h p (List.mem_cons_self p ps)
      have hps := ih (fun x hx => h x (List.mem_cons_of_mem _ hx))
      simp only [List.length_cons, List.sum_cons]
      omega

theorem sum_ge_length_succ : ∀ (l : List ℕ) (t : ℕ), (∀ x ∈ l, 1 ≤ x) →
    t < l.length → 2 ≤ l.getD t 0 → l.length + 1 ≤ l.sum := by
  intro l
  induction l with
  | nil => intro t _ ht; simp at ht
  | cons p ps ih =>
      intro t h ht h2
      cases t with
      | zero =>
          have hps := length_le_sum_of_one_le ps
            (fun x hx => h x (List.mem_cons_of_mem _ hx))
          simp only [List.getD_cons_zero] at h2
          simp only [List.length_cons, List.sum_cons]
          omega
      | succ t =>
          have hp := h p (List.mem_cons_self p ps)
          have hps := ih t (fun x hx => h x (List.mem_cons_of_mem _ hx))
            (Nat.lt_of_succ_lt_succ (by simpa using ht)) (by simpa using h2)
          simp only [List.length_cons, List.sum_cons]
          omega

theorem take_eq_replicate_one : ∀ (l : List ℕ) (m : ℕ), m ≤ l.length →
    (∀ i, i < m → l.getD i 0 = 1) → l.take m = List.replicate m 1 := by
  intro l
  induction l with
  | nil =>
      intro m hm _
      have hm0 : m = 0 := by simpa using hm
      subst hm0
      rfl
  | cons p ps ih =>
      intro m hm hfull
      cases m with
      | zero => rfl
      | succ m =>
          have hp : p = 1 := by simpa using hfull 0 (Nat.succ_pos m)
          rw [List.take_succ_cons, List.replicate_succ, hp]
          congr 1
          exact ih m (by simpa using hm)
            (fun i hi => by simpa using hfull (i + 1) (Nat.succ_lt_succ hi))

theorem sum_replicate_one (n : ℕ) : (List.replicate n 1).sum = n := by
  induction n with
  | zero => rfl
  | succ n ih =>
      rw [List.replicate_succ, List.sum_cons, ih]
      omega

theorem getD_drop (d : ℕ) : ∀ (l : List ℕ) (m i : ℕ),
    (l.drop m).getD i d = l.getD (m + i) d := by
  intro l
  induction l with
  | nil => intro m i; simp
  | cons p ps ih =>
      intro m i
      cases m with
      | zero => simp
      | succ m =>
          rw [List.drop_succ_cons, Nat.succ_add, List.getD_cons_succ]
          exact ih m i

/-- C6: on every accepted step of the interferometer fill (bra photon sum
equal to ket photon sum), the changed axis `k` never equals `num_modes`, and
the axis restriction `interfLimits` selects exactly the mode-half
complementary to the half containing `k`: the ket half `[num_modes, dim)`
when `k` is a bra axis, the bra half `[0, num_modes)` when `k` is a ket
axis. -/
theorem C6_interferometer_complementary_half (res dim num_modes j : ℕ)
    (hres : 1 ≤ res) (hnm : 1 ≤ num_modes) (hdim : dim = 2 * num_modes)
    (hj : j < res ^ dim - 1)
    (hacc : ((iterTraj res dim (j + 1)).nextPos.take num_modes).sum =
      ((iterTraj res dim (j + 1)).nextPos.drop num_modes).sum) :
    (iterAxis res dim j < num_modes ∧
      interfLimits num_modes dim (iterAxis res dim j) = (num_modes, dim)) ∨
    (num_modes < iterAxis res dim j ∧
      interfLimits num_modes dim (iterAxis res dim j) = (0, num_modes)) := by
  have hdim1 : 1 ≤ dim := by omega
  have hpow : 1 ≤ res ^ dim := Nat.one_le_pow _ _ (by omega)
  obtain ⟨hst, hk, h2, hprefix⟩ :=
    (iterTraj_inv res dim hres hdim1 (j + 1) (by omega)).2 (by omega)
  simp only [Nat.add_sub_cancel] at hst hk h2 hprefix
  have hacc2 : ((ofNum res dim (j + 1)).take num_modes).sum =
      ((ofNum res dim (j + 1)).drop num_modes).sum := by
    rw [hst] at hacc
    exact hacc
  have hlen : (ofNum res dim (j + 1)).length = dim := ofNum_length res dim (j + 1)
  have hin : inRange res (ofNum res dim (j + 1)) := ofNum_inRange res hres dim (j + 1)
  have hkne : iterAxis res dim j ≠ num_modes := by
    intro hknm
    have htake : (ofNum res dim (j + 1)).take num_modes = List.replicate num_modes 1 := by
      apply take_eq_replicate_one
      · omega
      · intro i hi
        apply hprefix
        omega
    have htsum : ((ofNum res dim (j + 1)).take num_modes).sum = num_modes := by
      rw [htake, sum_replicate_one]
    have hdlen : ((ofNum res dim (j + 1)).drop num_modes).length = num_modes := by
      rw [List.length_drop, hlen]
      omega
    have hdone : ∀ x ∈ (ofNum res dim (j + 1)).drop num_modes, 1 ≤ x :=
      fun x hx => (hin x (List.drop_subset _ _ hx)).1
    have hd0 : ((ofNum res dim (j + 1)).drop num_modes).getD 0 0 =
        (ofNum res dim (j + 1)).getD num_modes 0 := by
      rw [getD_drop]
      simp
    have hd2 : 2 ≤ ((ofNum res dim (j + 1)).drop num_modes).getD 0 0 := by
      rw [hd0, ← hknm]
      exact h2
    have hbig := sum_ge_length_succ ((ofNum res dim (j + 1)).drop num_modes) 0
      hdone (by omega) hd2
    omega
  rcases Nat.lt_trichotomy (iterAxis res dim j) num_modes with hlt | heq | hgt
  · left
    refine ⟨hlt, ?_⟩
    unfold interfLimits
    rw [if_neg (by omega)]
  · exact absurd heq hkne
  · right
    refine ⟨hgt, ?_⟩
    unfold interfLimits
    rw [if_pos hgt]

/-- Witness for C6 at `resolution = 2`, `dim = 2`, `num_modes = 1`, third
loop iteration (the step that fills `nextPos = [2,2]`, an accepted entry). -/
theorem C6_interferometer_complementary_half_witness :
    ((iterTraj 2 2 3).nextPos.take 1).sum = ((iterTraj 2 2 3).nextPos.drop 1).sum ∧
    ((iterAxis 2 2 2 < 1 ∧ interfLimits 1 2 (iterAxis 2 2 2) = (1, 2)) ∨
      (1 < iterAxis 2 2 2 ∧ interfLimits 1 2 (iterAxis 2 2 2) = (0, 1))) :=
  ⟨by decide,
    C6_interferometer_complementary_half 2 2 1 2 (by decide) (by decide)
      (by decide) (by decide) (by decide)⟩

/-! ## C7: no base term in the source-vector-free variants -/

/-- The correction loop leaves the tensor unchanged when every coefficient
vanishes (as happens when the relevant `R` entries are zero). -/
theorem corrFold_zero {T : Type} [CommRing T] (nextC : ℕ) (jf : List ℕ)
    (coef : ℕ → T) (prev : ℕ → ℕ) (hcoef : ∀ i, coef i = 0) :
    ∀ (axes : List ℕ) (H : ℕ → T), corrFold nextC axes jf coef prev H = H := by
  intro axes
  induction axes with
  | nil => intro H; rfl
  | cons a rest ih =>
      intro H
      have hstep : corrFold nextC (a :: rest) jf coef prev H =
          corrFold nextC rest jf coef prev H := by
        simp only [corrFold, List.foldl_cons]
        congr 1
        by_cases ha : 1 < jf.getD a 0
        · rw [if_pos ha, hcoef a, zero_mul, sub_zero, Function.update_eq_self]
        · rw [if_neg ha]
      rw [hstep, ih H]

theorem zeroList_getD (n : ℕ) : ([0, 0, 0, 0] : List ℚ).getD n 0 = 0 := by
  rcases n with _ | _ | _ | _ | n <;> rfl

/-- With `R = [0,0,0,0]` a squeezer step never changes the tensor (both the
rejected and the accepted branch leave every entry as it was, the latter
because all correction coefficients carry a factor `R[...] = 0`). -/
theorem sqzStep_zeroR (intsqrt : ℕ → ℚ) (res dim : ℕ)
    (st : (ℕ → ℚ) × IterState) :
    (sqzStep [0, 0, 0, 0] intsqrt res dim st).1 = st.1 := by
  unfold sqzStep
  dsimp only
  split
  · exact corrFold_zero _ _ _ _
      (fun i => by rw [zeroList_getD, mul_zero]) _ _
  · rfl

theorem sqzTraj_zeroR_const (intsqrt : ℕ → ℚ) (init : ℕ → ℚ) :
    ∀ j, (sqzTraj [0, 0, 0, 0] id intsqrt 3 2 init j).1 =
      Function.update init 0 (id (-([0, 0, 0, 0] : List ℚ).getD 1 0)) := by
  intro j
  induction j with
  | zero => rfl
  | succ j ih =>
      show ((sqzStep [0, 0, 0, 0] intsqrt 3 2)^[j + 1] _).1 = _
      rw [Function.iterate_succ_apply', sqzStep_zeroR]
      exact ih

/-- Counterexample to C7 as stated: in the single-mode squeezer fill with
`R = [0,0,0,0]` over `ℚ` (every correction term carries a factor
`R[k*dim+ii] = 0`), `resolution = 3`, square-root parameters instantiated
arbitrarily, and malloc contents `init i = i`, the second loop iteration is
accepted (`nextPos = [3,1]`, parity `1 = 1`), has changed axis `k = 0`,
`jumpFrom = [2,1]`, `nextCoordinate = 6`, `fromCoordinate = 3` — and the
code leaves `H[6] = 6` (the entry's prior buffer value, minus zero
corrections), while the claimed base term `H[fromCoordinate] * 1` equals
`3`.  So accepted steps do not set `H[nextCoord] = H[fromCoord] * 1` before
the corrections. -/
theorem C7_counterexample :
    (iterTraj 3 2 2).nextPos = [3, 1] ∧
    (iterTraj 3 2 2).jumpFrom = [2, 1] ∧
    iterAxis 3 2 1 = 0 ∧
    (iterTraj 3 2 2).nextPos.getD 0 0 % 2 = (iterTraj 3 2 2).nextPos.getD 1 0 % 2 ∧
    vec2index [3, 1] 3 = 6 ∧ vec2index [2, 1] 3 = 3 ∧
    (sqzTraj [0, 0, 0, 0] id (fun n => (n : ℚ)) 3 2 (fun i => (i : ℚ)) 2).1 6 = 6 ∧
    (sqzTraj [0, 0, 0, 0] id (fun n => (n : ℚ)) 3 2 (fun i => (i : ℚ)) 1).1 3 = 3 ∧
    (6 : ℚ) ≠ 3 * 1 := by
  refine ⟨by decide, by decide, by decide, by decide, by decide, by decide,
    ?_, ?_, by norm_num⟩
  · rw [sqzTraj_zeroR_const (fun n => (n : ℚ)) (fun i => (i : ℚ)) 2,
      Function.update_noteq (by decide : (6 : ℕ) ≠ 0)]
    norm_num
  · rw [sqzTraj_zeroR_const (fun n => (n : ℚ)) (fun i => (i : ℚ)) 1,
      Function.update_noteq (by decide : (3 : ℕ) ≠ 0)]
    norm_num

/-- C7 amended: in the variants without a source vector (interferometer,
single-mode squeezer, two-mode squeezer) an accepted step assigns no base
term — `fromCoordinate` is dead — and the new value of `H[nextCoordinate]`
is its own pre-step value minus the correction sum (over the restricted axis
range for the interferometer, over all axes for the squeezers). -/
theorem C7_amended_no_base_term {T : Type} [Field T] (res : ℕ) (hres : 1 ≤ res) :
    (∀ (R : List T) (intsqrt : ℕ → T) (dim num_modes : ℕ) (init : ℕ → T) (j : ℕ),
      1 ≤ dim → num_modes ≤ dim → j < res ^ dim - 1 →
      ((iterTraj res dim (j + 1)).nextPos.take num_modes).sum =
        ((iterTraj res dim (j + 1)).nextPos.drop num_modes).sum →
      (interfTraj R intsqrt res dim num_modes init (j + 1)).1
          (vec2index (iterTraj res dim (j + 1)).nextPos res) =
        (interfTraj R intsqrt res dim num_modes init j).1
            (vec2index (iterTraj res dim (j + 1)).nextPos res)
          - ((List.range' (interfLimits num_modes dim (iterAxis res dim j)).1
              ((interfLimits num_modes dim (iterAxis res dim j)).2
                - (interfLimits num_modes dim (iterAxis res dim j)).1)).map
              (fun i =>
                if 1 < (iterTraj res dim (j + 1)).jumpFrom.getD i 0 then
                  intsqrt ((iterTraj res dim (j + 1)).jumpFrom.getD i 0 - 1) /
                      intsqrt ((iterTraj res dim (j + 1)).nextPos.getD
                        (iterAxis res dim j) 0 - 1)
                    * R.getD (iterAxis res dim j * dim + i) 0
                    * (interfTraj R intsqrt res dim num_modes init j).1
                        (vec2index (subAt (iterTraj res dim (j + 1)).jumpFrom i) res)
                else 0)).sum) ∧
    (∀ (R : List T) (sqrtT : T → T) (intsqrt : ℕ → T) (dim : ℕ) (init : ℕ → T) (j : ℕ),
      1 ≤ dim → j < res ^ dim - 1 →
      (iterTraj res dim (j + 1)).nextPos.getD 0 0 % 2 =
        (iterTraj res dim (j + 1)).nextPos.getD 1 0 % 2 →
      (sqzTraj R sqrtT intsqrt res dim init (j + 1)).1
          (vec2index (iterTraj res dim (j + 1)).nextPos res) =
        (sqzTraj R sqrtT intsqrt res dim init j).1
            (vec2index (iterTraj res dim (j + 1)).nextPos res)
          - ((List.range dim).map
              (fun i =>
                if 1 < (iterTraj res dim (j + 1)).jumpFrom.getD i 0 then
                  intsqrt ((iterTraj res dim (j + 1)).jumpFrom.getD i 0 - 1) /
                      intsqrt ((iterTraj res dim (j + 1)).nextPos.getD
                        (iterAxis res dim j) 0 - 1)
                    * R.getD (iterAxis res dim j * dim + i) 0
                    * (sqzTraj R sqrtT intsqrt res dim init j).1
                        (vec2index (subAt (iterTraj res dim (j + 1)).jumpFrom i) res)
                else 0)).sum) ∧
    (∀ (R : List T) (intsqrt : ℕ → T) (dim : ℕ) (init : ℕ → T) (j : ℕ),
      1 ≤ dim → j < res ^ dim - 1 →
      ((iterTraj res dim (j + 1)).nextPos.getD 0 0 : ℤ)
          - ((iterTraj res dim (j + 1)).nextPos.getD 1 0 : ℤ) =
        ((iterTraj res dim (j + 1)).nextPos.getD 2 0 : ℤ)
          - ((iterTraj res dim (j + 1)).nextPos.getD 3 0 : ℤ) →
      (tmsTraj R intsqrt res dim init (j + 1)).1
          (vec2index (iterTraj res dim (j + 1)).nextPos res) =
        (tmsTraj R intsqrt res dim init j).1
            (vec2index (iterTraj res dim (j + 1)).nextPos res)
          - ((List.range dim).map
              (fun i =>
                if 1 < (iterTraj res dim (j + 1)).jumpFrom.getD i 0 then
                  intsqrt ((iterTraj res dim (j + 1)).jumpFrom.getD i 0 - 1) /
                      intsqrt ((iterTraj res dim (j + 1)).nextPos.getD
                        (iterAxis res dim j) 0 - 1)
                    * R.getD (iterAxis res dim j * dim + i) 0
                    * (tmsTraj R intsqrt res dim init j).1
                        (vec2index (subAt (iterTraj res dim (j + 1)).jumpFrom i) res)
                else 0)).sum) := by
  refine ⟨?_, ?_, ?_⟩
  · intro R intsqrt dim num_modes init j hdim hnmd hj hacc
    have hpow : 1 ≤ res ^ dim := Nat.one_le_pow _ _ (by omega)
    have hsnd : (interfTraj R intsqrt res dim num_modes init j).2 =
        iterTraj res dim j := by
      show ((interfStep R intsqrt res dim num_modes)^[j]
        (Function.update init 0 1, initIter dim)).2 = _
      exact traj_snd res dim _ (interfStep_snd R intsqrt res dim num_modes) _ j
    have hpair : interfTraj R intsqrt res dim num_modes init j =
        ((interfTraj R intsqrt res dim num_modes init j).1, iterTraj res dim j) := by
      rw [← hsnd]
    have hstep2 : interfTraj R intsqrt res dim num_modes init (j + 1) =
        interfStep R intsqrt res dim num_modes
          (interfTraj R intsqrt res dim num_modes init j) := by
      show (interfStep R intsqrt res dim num_modes)^[j + 1] _ = _
      rw [Function.iterate_succ_apply']
      rfl
    have hacc2 : (((update_iterator res (iterTraj res dim j)).1.nextPos.take
        num_modes).sum =
        ((update_iterator res (iterTraj res dim j)).1.nextPos.drop num_modes).sum) :=
      hacc
    have hfill : (interfTraj R intsqrt res dim num_modes init (j + 1)).1 =
        corrFold (vec2index (iterTraj res dim (j + 1)).nextPos res)
          (List.range' (interfLimits num_modes dim (iterAxis res dim j)).1
            ((interfLimits num_modes dim (iterAxis res dim j)).2
              - (interfLimits num_modes dim (iterAxis res dim j)).1))
          (iterTraj res dim (j + 1)).jumpFrom
          (fun ii => intsqrt ((iterTraj res dim (j + 1)).jumpFrom.getD ii 0 - 1) /
              intsqrt ((iterTraj res dim (j + 1)).nextPos.getD (iterAxis res dim j) 0 - 1)
            * R.getD (iterAxis res dim j * dim + ii) 0)
          (fun ii => vec2index (subAt (iterTraj res dim (j + 1)).jumpFrom ii) res)
          (interfTraj R intsqrt res dim num_modes init j).1 := by
      rw [hstep2, hpair]
      unfold interfStep
      dsimp only
      rw [if_pos hacc2]
      rfl
    have hlim : ∀ i ∈ List.range' (interfLimits num_modes dim (iterAxis res dim j)).1
        ((interfLimits num_modes dim (iterAxis res dim j)).2
          - (interfLimits num_modes dim (iterAxis res dim j)).1), i < dim := by
      intro i hi
      rw [List.mem_range'_1] at hi
      unfold interfLimits at hi
      by_cases hc : num_modes < iterAxis res dim j
      · rw [if_pos hc] at hi
        simp only at hi
        omega
      · rw [if_neg hc] at hi
        simp only at hi
        omega
    have hne : ∀ i ∈ List.range' (interfLimits num_modes dim (iterAxis res dim j)).1
        ((interfLimits num_modes dim (iterAxis res dim j)).2
          - (interfLimits num_modes dim (iterAxis res dim j)).1),
        1 < (iterTraj res dim (j + 1)).jumpFrom.getD i 0 →
        (fun ii => vec2index (subAt (iterTraj res dim (j + 1)).jumpFrom ii) res) i ≠
          vec2index (iterTraj res dim (j + 1)).nextPos res := by
      intro i hi hgt
      exact prevCoord_ne_nextCoord res dim j hres hdim (by omega) i (hlim i hi) hgt
    rw [hfill, corrFold_eq _ _ _ _ _ _ hne, Function.update_same]
  · intro R sqrtT intsqrt dim init j hdim hj hacc
    have hpow : 1 ≤ res ^ dim := Nat.one_le_pow _ _ (by omega)
    have hsnd : (sqzTraj R sqrtT intsqrt res dim init j).2 = iterTraj res dim j := by
      show ((sqzStep R intsqrt res dim)^[j]
        (Function.update init 0 (sqrtT (-R.getD 1 0)), initIter dim)).2 = _
      exact traj_snd res dim _ (sqzStep_snd R intsqrt res dim) _ j
    have hpair : sqzTraj R sqrtT intsqrt res dim init j =
        ((sqzTraj R sqrtT intsqrt res dim init j).1, iterTraj res dim j) := by
      rw [← hsnd]
    have hstep2 : sqzTraj R sqrtT intsqrt res dim init (j + 1) =
        sqzStep R intsqrt res dim (sqzTraj R sqrtT intsqrt res dim init j) := by
      show (sqzStep R intsqrt res dim)^[j + 1] _ = _
      rw [Function.iterate_succ_apply']
      rfl
    have hacc2 : ((update_iterator res (iterTraj res dim j)).1.nextPos.getD 0 0 % 2 =
        (update_iterator res (iterTraj res dim j)).1.nextPos.getD 1 0 % 2) := hacc
    have hfill : (sqzTraj R sqrtT intsqrt res dim init (j + 1)).1 =
        corrFold (vec2index (iterTraj res dim (j + 1)).nextPos res) (List.range dim)
          (iterTraj res dim (j + 1)).jumpFrom
          (fun ii => intsqrt ((iterTraj res dim (j + 1)).jumpFrom.getD ii 0 - 1) /
              intsqrt ((iterTraj res dim (j + 1)).nextPos.getD (iterAxis res dim j) 0 - 1)
            * R.getD (iterAxis res dim j * dim + ii) 0)
          (fun ii => vec2index (subAt (iterTraj res dim (j + 1)).jumpFrom ii) res)
          (sqzTraj R sqrtT intsqrt res dim init j).1 := by
      rw [hstep2, hpair]
      unfold sqzStep
      dsimp only
      rw [if_pos hacc2]
      rfl
    have hne : ∀ i ∈ List.range dim,
        1 < (iterTraj res dim (j + 1)).jumpFrom.getD i 0 →
        (fun ii => vec2index (subAt (iterTraj res dim (j + 1)).jumpFrom ii) res) i ≠
          vec2index (iterTraj res dim (j + 1)).nextPos res := by
      intro i hi hgt
      exact prevCoord_ne_nextCoord res dim j hres hdim (by omega) i
        (List.mem_range.mp hi) hgt
    rw [hfill, corrFold_eq _ _ _ _ _ _ hne, Function.update_same]
  · intro R intsqrt dim init j hdim hj hacc
    have hpow : 1 ≤ res ^ dim := Nat.one_le_pow _ _ (by omega)
    have hsnd : (tmsTraj R intsqrt res dim init j).2 = iterTraj res dim j := by
      show ((tmsStep R intsqrt res dim)^[j]
        (Function.update (fun i => if i < res ^ dim then (0 : T) else init i) 0
          (-R.getD 2 0), initIter dim)).2 = _
      exact traj_snd res dim _ (tmsStep_snd R intsqrt res dim) _ j
    have hpair : tmsTraj R intsqrt res dim init j =
        ((tmsTraj R intsqrt res dim init j).1, iterTraj res dim j) := by
      rw [← hsnd]
    have hstep2 : tmsTraj R intsqrt res dim init (j + 1) =
        tmsStep R intsqrt res dim (tmsTraj R intsqrt res dim init j) := by
      show (tmsStep R intsqrt res dim)^[j + 1] _ = _
      rw [Function.iterate_succ_apply']
      rfl
    have hacc2 : (((update_iterator res (iterTraj res dim j)).1.nextPos.getD 0 0 : ℤ)
        - ((update_iterator res (iterTraj res dim j)).1.nextPos.getD 1 0 : ℤ) =
        ((update_iterator res (iterTraj res dim j)).1.nextPos.getD 2 0 : ℤ)
        - ((update_iterator res (iterTraj res dim j)).1.nextPos.getD 3 0 : ℤ)) := hacc
    have hfill : (tmsTraj R intsqrt res dim init (j + 1)).1 =
        corrFold (vec2index (iterTraj res dim (j + 1)).nextPos res) (List.range dim)
          (iterTraj res dim (j + 1)).jumpFrom
          (fun ii => intsqrt ((iterTraj res dim (j + 1)).jumpFrom.getD ii 0 - 1) /
              intsqrt ((iterTraj res dim (j + 1)).nextPos.getD (iterAxis res dim j) 0 - 1)
            * R.getD (iterAxis res dim j * dim + ii) 0)
          (fun ii => vec2index (subAt (iterTraj res dim (j + 1)).jumpFrom ii) res)
          (tmsTraj R intsqrt res dim init j).1 := by
      rw [hstep2, hpair]
      unfold tmsStep
      dsimp only
      rw [if_pos hacc2]
      rfl
    have hne : ∀ i ∈ List.range dim,
        1 < (iterTraj res dim (j + 1)).jumpFrom.getD i 0 →
        (fun ii => vec2index (subAt (iterTraj res dim (j + 1)).jumpFrom ii) res) i ≠
          vec2index (iterTraj res dim (j + 1)).nextPos res := by
      intro i hi hgt
      exact prevCoord_ne_nextCoord res dim j hres hdim (by omega) i
        (List.mem_range.mp hi) hgt
    rw [hfill, corrFold_eq _ _ _ _ _ _ hne, Function.update_same]

/-- Witness for the amended C7: the squeezer component applied at
`resolution = 3`, `dim = 2`, second loop iteration (an accepted step). -/
theorem C7_amended_no_base_term_witness :
    (sqzTraj [0, 0, 0, 0] id (fun n => (n : ℚ)) 3 2 (fun i => (i : ℚ)) 2).1
        (vec2index (iterTraj 3 2 2).nextPos 3) =
      (sqzTraj [0, 0, 0, 0] id (fun n => (n : ℚ)) 3 2 (fun i => (i : ℚ)) 1).1
          (vec2index (iterTraj 3 2 2).nextPos 3)
        - ((List.range 2).map
            (fun i =>
              if 1 < (iterTraj 3 2 2).jumpFrom.getD i 0 then
                (fun n : ℕ => (n : ℚ)) ((iterTraj 3 2 2).jumpFrom.getD i 0 - 1) /
                    (fun n : ℕ => (n : ℚ))
                      ((iterTraj 3 2 2).nextPos.getD (iterAxis 3 2 1) 0 - 1)
                  * ([0, 0, 0, 0] : List ℚ).getD (iterAxis 3 2 1 * 2 + i) 0
                  * (sqzTraj [0, 0, 0, 0] id (fun n => (n : ℚ)) 3 2
                      (fun i => (i : ℚ)) 1).1
                      (vec2index (subAt (iterTraj 3 2 2).jumpFrom i) 3)
              else 0)).sum :=
  (C7_amended_no_base_term 3 (by decide)).2.1 [0, 0, 0, 0] id (fun n => (n : ℚ))
    2 (fun i => (i : ℚ)) 1 (by decide) (by decide) (by decide)

/-- C8: the concrete scenario `resolution = 2`, `dim = 2`,
`R = [[0,1],[1,0]]`, `y = [0,0]` of the unnormalized Hermite tensor yields
`H = [1, 0, 0, -1]` in flattened order, independently of the malloc
contents (every entry is written during this fill). -/
theorem C8_concrete_tensor (init : ℕ → ℤ) :
    (List.range 4).map (hermite_multidimensional_cpp [0, 1, 1, 0] [0, 0] 2 init) =
      [1, 0, 0, -1] := by
  have hsq : Nat.sqrt ([0, 1, 1, 0] : List ℤ).length = 2 := by
    rw [show ([0, 1, 1, 0] : List ℤ).length = 2 * 2 from rfl]
    exact Nat.sqrt_eq 2
  unfold hermite_multidimensional_cpp
  rw [hsq]
  rfl

/-- C4 (code bug): the buffer is not zero-initialized.  In the
interferometer fill with `resolution = 2`, `dim = 2`, the multi-index
`[1,2]` (flattened index 1) violates the selection rule (`bran = 1 ≠ 2 = ketn`),
is therefore never written, and the returned entry is whatever the `malloc`
contents were (here `7`), not `0` — because the source's
`memset(H, sizeof(val), sizeof(H))` zeroes only a pointer-sized prefix. -/
theorem C4_not_zero_initialized :
    interferometer_cpp [0, 1, 1, 0] (fun n => (n : ℚ)) 2 (fun _ => (7 : ℚ)) 1 = 7 ∧
    (7 : ℚ) ≠ 0 := by
  constructor
  · have hsq : Nat.sqrt ([0, 1, 1, 0] : List ℚ).length = 2 := by
      rw [show ([0, 1, 1, 0] : List ℚ).length = 2 * 2 from rfl]
      exact Nat.sqrt_eq 2
    unfold interferometer_cpp
    rw [hsq]
    rfl
  · norm_num

/-- C9 (code bug): `two_mode_squeezing_cpp` is not free of stream output —
its zero-initialization loop prints every tensor entry to `std::cout`.  At
`resolution = 1` with a `4 × 4` zero matrix it prints one value. -/
theorem C9_two_mode_squeezing_prints :
    two_mode_squeezing_cout ℚ (List.replicate 16 0) 1 = [0] ∧
    two_mode_squeezing_cout ℚ (List.replicate 16 0) 1 ≠ [] := by
  have hsq : Nat.sqrt (List.replicate 16 (0 : ℚ)).length = 4 := by
    rw [show (List.replicate 16 (0 : ℚ)).length = 4 * 4 from rfl]
    exact Nat.sqrt_eq 4
  constructor
  · unfold two_mode_squeezing_cout
    rw [hsq]
    rfl
  · unfold two_mode_squeezing_cout
    rw [hsq]
    simp

/-- Witness for C8 with zero malloc contents. -/
theorem C8_concrete_tensor_witness :
    (List.range 4).map
        (hermite_multidimensional_cpp [0, 1, 1, 0] [0, 0] 2 (fun _ => (0 : ℤ))) =
      [1, 0, 0, -1] :=
  C8_concrete_tensor (fun _ => 0)
